import Mathlib

/-!
Verification development for the a-cli terminal client (src/src/model.go).

The Go source is shallowly embedded below.  Conventions of the embedding:
  * Go float64 values carried by the program are never computed with in the
    modelled code paths (they are only stored, type-asserted and compared to
    the NaN sentinel), so a float64 is modelled as either the NaN sentinel or
    a finite value identified by a rational number.  Zero-initialisation of
    a Go float64 slice yields the finite value 0.
  * Go "any" scalar values are a tagged variant Value.
  * Go maps (map[string]any) are association lists; indexing a missing key
    yields the zero value (nil), rendered by fmt as the string given below.
    Iteration order over a Go map is unspecified; where the source iterates
    over a map, the embedding iterates in list order, and claims about
    determinism quantify over re-orderings of that list.
  * Code that can panic (nil pointer dereference, out-of-range slice index)
    is embedded as Option-returning; none is a panic.
  * External collaborators (bubbles textarea/table/spinner, lipgloss, the
    asciigraph painter, the axiom transport) are modelled only at the data
    surface the core reads and writes, per the spec section 1.
-/

namespace ACli

/-- A Go float64 as used by this program: either the NaN sentinel or a finite
value (identified by a rational; no float arithmetic occurs in the modelled
paths). -/
inductive F64 where
  | nan : F64
  | fin : ℚ → F64
deriving DecidableEq, Repr

/-- A Go "any" scalar value as it appears in query results. -/
inductive Value where
  | vfloat : F64 → Value
  | vint : Int → Value
  | vstr : String → Value
  | vnil : Value
  | vother : String → Value
deriving DecidableEq, Repr

/-- Go map indexing: first binding wins, missing key yields the zero value
(nil). -/
def mapGet (m : List (String × Value)) (k : String) : Value :=
  (m.lookup k).getD .vnil

/-- Rendering of a scalar by fmt.Sprintf with the v verb.  The finite-float
branch is exercised by no theorem below except on integral values, where Go
prints the plain integer. -/
def fmtValue : Value → String
  | .vstr s => s
  | .vint n => toString n
  | .vfloat (.fin q) => if q.den = 1 then toString q.num else toString q
  | .vfloat .nan => "NaN"
  | .vnil => "<nil>"
  | .vother s => s

/-- axiomQuery.Aggregation: an alias and a value. -/
structure Aggregation where
  aliasName : String
  value : Value
deriving DecidableEq, Repr

/-- axiomQuery.EntryGroup: the group dimension map and the aggregations. -/
structure EntryGroup where
  group : List (String × Value)
  aggregations : List Aggregation
deriving DecidableEq, Repr

/-- axiomQuery.Interval: only the Groups field is read by the source. -/
structure SeriesInterval where
  groups : List EntryGroup
deriving DecidableEq, Repr

/-- axiomQuery.Timeseries: Series and Totals. -/
structure BucketsData where
  series : List SeriesInterval
  totals : List EntryGroup
deriving DecidableEq, Repr

/-- axiomQuery.Entry (a match): its timestamp rendered by Time.String, and
its Data map. -/
structure MatchEntry where
  time : String
  data : List (String × Value)
deriving DecidableEq, Repr

/-- axiomQuery.Result: Matches and Buckets. -/
structure QueryResult where
  matchList : List MatchEntry
  buckets : BucketsData
deriving DecidableEq, Repr

/-- The COLORS palette (asciigraph color names). -/
def COLORS : List String :=
  ["Blue", "Magenta", "Cyan", "Green", "Yellow", "Red", "AliceBlue",
   "Cornsilk", "Crimson", "DarkViolet", "DeepPink", "Gold", "Indigo",
   "Lavender", "LightCoral", "LightSalmon"]

/-- The dimmed sentinel color used for non-highlighted rows. -/
def slateGray : String := "SlateGray"

/-- The splash pulse palette. -/
def PULSE_STEP_COLORS : List String :=
  ["#432155", "#4e2667", "#5f2d84", "#7938b2", "#8e4ec6",
   "#9d5bd2", "#8e4ec6", "#7938b2", "#5f2d84", "#4e2667"]

/-- The UTF-8 encoding of one character (the byte sequence Go writes). -/
def utf8EncodeChar (c : Char) : List Nat :=
  let n := c.toNat
  if n < 128 then [n]
  else if n < 2048 then [192 ||| (n >>> 6), 128 ||| (n &&& 63)]
  else if n < 65536 then
    [224 ||| (n >>> 12), 128 ||| ((n >>> 6) &&& 63), 128 ||| (n &&& 63)]
  else
    [240 ||| (n >>> 18), 128 ||| ((n >>> 12) &&& 63),
     128 ||| ((n >>> 6) &&& 63), 128 ||| (n &&& 63)]

/-- hash: FNV-1a 32-bit over the UTF-8 bytes of the string, as in hash/fnv. -/
def fnv1a32 (s : String) : Nat :=
  ((s.data.map utf8EncodeChar).flatten).foldl
    (fun h b => ((h ^^^ b) * 16777619) % 4294967296) 2166136261

/-- getGroupKey: the group-dimension values under orderedGroupKeys, rendered
by fmt and joined by a comma and space. -/
def getGroupKey (orderedGroupKeys : List String) (group : List (String × Value)) : String :=
  String.intercalate ", " (orderedGroupKeys.map (fun k => fmtValue (mapGet group k)))

/-- Three-way comparison of character lists by code point.  On valid UTF-8,
byte-wise comparison (the Go string order) coincides with code-point
lexicographic comparison. -/
def cmpChars : List Char → List Char → Ordering
  | [], [] => .eq
  | [], _ :: _ => .lt
  | _ :: _, [] => .gt
  | a :: as, b :: bs =>
    if a.toNat < b.toNat then .lt
    else if b.toNat < a.toNat then .gt
    else cmpChars as bs

/-- The Go string order, as a boolean less-or-equal. -/
def strLe (a b : String) : Bool := cmpChars a.data b.data ≠ .gt

/-- The Go string order as a relation (for the sort). -/
def strLeP (a b : String) : Prop := strLe a b = true

instance : DecidableRel strLeP := fun a b => instDecidableEqBool (strLe a b) true

/-- sort.Strings: ascending lexicographic sort.  The sorted list is unique,
so any correct sort is extensionally the Go one. -/
def sortStrings (l : List String) : List String :=
  l.insertionSort strLeP

/-- The loop of Go sort.Search, written with explicit fuel so that it is
structurally recursive: each Go iteration shrinks j - i by at least one, so
fuel j - i never runs out (the spec lemma below is proved for any
sufficient fuel). -/
def goSearchFuel (f : Nat → Bool) : Nat → Nat → Nat → Nat
  | 0, i, _ => i
  | fuel + 1, i, j =>
    if i < j then
      if f ((i + j) / 2) then goSearchFuel f fuel i ((i + j) / 2)
      else goSearchFuel f fuel ((i + j) / 2 + 1) j
    else i

/-- The Go sort.Search loop from bounds i and j. -/
def goSearchAux (f : Nat → Bool) (i j : Nat) : Nat :=
  goSearchFuel f (j - i) i j

/-- sort.SearchStrings a x = sort.Search (len a) (fun i => a i >= x). -/
def searchStrings (a : List String) (x : String) : Nat :=
  goSearchAux (fun h => strLe x (a.getD h "")) 0 a.length

/-- Op: a named aggregation. -/
structure Op where
  name : String
deriving DecidableEq, Repr

/-- QueryMeta as in the source; groupColors is the Go map as an association
list in insertion order (one binding per group). -/
structure QueryMeta where
  orderedGroupKeys : List String
  opsCount : Nat
  intervals : Nat
  groups : List String
  ops : List Op
  groupColors : List (String × String)
deriving DecidableEq, Repr

/-- State threaded through the series walk of UpdateQueryMeta. -/
structure MetaWalk where
  opsCount : Nat
  orderedGroupKeys : List String
  groups : List String
deriving DecidableEq, Repr

/-- One entry group of the series walk of UpdateQueryMeta: seed
orderedGroupKeys from the first non-empty Group (its sorted key set), track
the max aggregation count, and accumulate the deduplicated group key. -/
def metaStep (st : MetaWalk) (g : EntryGroup) : MetaWalk :=
  let ogk := if st.orderedGroupKeys.length = 0 ∧ 0 < g.group.length
             then sortStrings (g.group.map Prod.fst)
             else st.orderedGroupKeys
  let oc := if g.aggregations.length > st.opsCount then g.aggregations.length else st.opsCount
  let key := getGroupKey ogk g.group
  let gs := if st.groups.contains key then st.groups else st.groups ++ [key]
  ⟨oc, ogk, gs⟩

/-- One totals entry group of the ops walk of UpdateQueryMeta: append each
first-seen alias. -/
def opsStep (ops : List Op) (g : EntryGroup) : List Op :=
  g.aggregations.foldl
    (fun acc a => if acc.any (fun op => op.name == a.aliasName) then acc
                  else acc ++ [⟨a.aliasName⟩]) ops

/-- The entry groups of all series intervals, in walk order. -/
def allSeriesGroups (r : QueryResult) : List EntryGroup :=
  (r.buckets.series.map SeriesInterval.groups).flatten

/-- The ops list derived from the totals walk. -/
def opsOf (r : QueryResult) : List Op :=
  r.buckets.totals.foldl opsStep []

/-- The final state of the series walk of UpdateQueryMeta. -/
def metaWalkOf (r : QueryResult) : MetaWalk :=
  (allSeriesGroups r).foldl metaStep ⟨0, [], []⟩

/-- The stable palette color of a group key. -/
def colorOf (g : String) : String :=
  COLORS.getD (fnv1a32 g % COLORS.length) ""

/-- The meta derived from a non-empty result. -/
def metaSome (r : QueryResult) : QueryMeta :=
  let walk := metaWalkOf r
  let groups := sortStrings walk.groups
  ⟨walk.orderedGroupKeys, walk.opsCount, r.buckets.series.length,
   groups, opsOf r, groups.map (fun g => (g, colorOf g))⟩

/-- UpdateQueryMeta: none when the result is absent or has no intervals,
otherwise the derived meta. -/
def metaOf (result : Option QueryResult) : Option QueryMeta :=
  match result with
  | none => none
  | some r =>
    if r.buckets.series.length = 0 then none else some (metaSome r)

/-- bubbles table.Column: a title and a width. -/
structure Column where
  title : String
  width : Nat
deriving DecidableEq, Repr

/-- The selected-row style values constructed in the source: the plain style
installed at table construction, and the highlight style installed by
ViewMatches and ViewTotals (foreground 229, background 57, bold off). -/
inductive SelStyle where
  | construction : SelStyle
  | highlight : SelStyle
deriving DecidableEq, Repr

/-- The bubbles table widget at the surface the source reads and writes:
columns, rows, focus, cursor and the selected-row style. -/
structure TableW where
  columns : List Column
  rows : List (List String)
  focused : Bool
  cursor : Nat
  styles : SelStyle
deriving DecidableEq, Repr

/-- One row of the matches table: the match timestamp, then per non-time
column the fmt rendering of the value under the column title (the four
switch cases of the source all render with the v verb). -/
def matchRow (columns : List Column) (mt : MatchEntry) : List String :=
  mt.time :: (columns.drop 1).map (fun c => fmtValue (mapGet mt.data c.title))

/-- UpdateMatchesTable table construction: none when the result is absent or
has no matches; otherwise a fixed leading time column, one column per key of
the first match in map enumeration order, one row per match, focused, height
20, plain selected style. -/
def matchesTableOf (result : Option QueryResult) : Option TableW :=
  match result with
  | none => none
  | some r =>
    match r.matchList with
    | [] => none
    | m0 :: _ =>
      let columns := ⟨"_time", 20⟩ :: m0.data.map (fun kv => (⟨kv.1, 10⟩ : Column))
      some ⟨columns, r.matchList.map (matchRow columns), true, 0, .construction⟩

/-- One row of the totals table: group-dimension cells under orderedGroupKeys
then one cell per aggregation, all rendered by fmt. -/
def totalsRowOf (qm : QueryMeta) (total : EntryGroup) : List String :=
  qm.orderedGroupKeys.map (fun k => fmtValue (mapGet total.group k))
    ++ total.aggregations.map (fun a => fmtValue a.value)

/-- UpdateTotals: inner none means the table is cleared; outer none is the
nil-pointer panic of reading orderedGroupKeys from a nil queryMeta.  The
constructed table is blurred. -/
def totalsTableOf (meta : Option QueryMeta) (result : Option QueryResult) :
    Option (Option TableW) :=
  match result with
  | none => some none
  | some r =>
    if r.buckets.totals.length = 0 then some none
    else
      match meta with
      | none => none
      | some qm =>
        let columns := qm.orderedGroupKeys.map (fun k => (⟨k, 20⟩ : Column))
          ++ qm.ops.map (fun op => (⟨op.name, 20⟩ : Column))
        some (some ⟨columns, r.buckets.totals.map (totalsRowOf qm), false, 0,
                    .construction⟩)

/-- GraphData: a title, the data matrix and the per-row colors. -/
structure GraphData where
  title : String
  data : List (List F64)
  colors : List String
deriving DecidableEq, Repr

/-- makeGraphs: one graph per op; the matrix is groups-by-intervals and Go
zero-initialises every cell to the finite float 0; a row color is the dimmed
sentinel when a highlight is active and the row is not the highlighted group,
else the palette color of the group. -/
def makeGraphs (qm : QueryMeta) (highlightedGroup : String) : List GraphData :=
  qm.ops.map (fun op =>
    ⟨op.name,
     List.replicate qm.groups.length (List.replicate qm.intervals (F64.fin 0)),
     qm.groups.map (fun g =>
       if highlightedGroup ≠ "" ∧ g ≠ highlightedGroup then slateGray
       else ((qm.groupColors.lookup g).getD ""))⟩)

/-- A Go slice store row i := v; none is the out-of-range panic. -/
def setCell (row : List F64) (i : Nat) (v : F64) : Option (List F64) :=
  if i < row.length then some (row.set i v) else none

/-- One aggregation write of UpdateGraphs: index graph k, its row, and store
the interval value (the float value if the dynamic type is float64, else the
NaN sentinel).  none is an out-of-range panic. -/
def applyAgg (rowIdx intervalIdx k : Nat) (a : Aggregation)
    (graphs : List GraphData) : Option (List GraphData) :=
  match graphs[k]? with
  | none => none
  | some graph =>
    match graph.data[rowIdx]? with
    | none => none
    | some row =>
      let v := match a.value with
        | .vfloat f => f
        | _ => F64.nan
      (setCell row intervalIdx v).map (fun rowNew =>
        graphs.set k { graph with data := graph.data.set rowIdx rowNew })

/-- The aggregation loop of one entry group, with the running graph index. -/
def applyAggs (rowIdx intervalIdx : Nat) (aggs : List Aggregation) (k : Nat)
    (graphs : List GraphData) : Option (List GraphData) :=
  match aggs with
  | [] => some graphs
  | a :: rest =>
    match applyAgg rowIdx intervalIdx k a graphs with
    | none => none
    | some gs => applyAggs rowIdx intervalIdx rest (k + 1) gs

/-- One entry group of one interval: compute the group key under the meta
orderedGroupKeys, binary-search its row, and write the aggregations. -/
def applyGroup (qm : QueryMeta) (intervalIdx : Nat) (graphs : List GraphData)
    (g : EntryGroup) : Option (List GraphData) :=
  applyAggs (searchStrings qm.groups (getGroupKey qm.orderedGroupKeys g.group))
    intervalIdx g.aggregations 0 graphs

/-- The group loop of one interval. -/
def applyGroups (qm : QueryMeta) (intervalIdx : Nat) (gs : List EntryGroup)
    (graphs : List GraphData) : Option (List GraphData) :=
  match gs with
  | [] => some graphs
  | g :: rest =>
    match applyGroup qm intervalIdx graphs g with
    | none => none
    | some graphs2 => applyGroups qm intervalIdx rest graphs2

/-- The interval loop, with the running interval index. -/
def applyIntervals (qm : QueryMeta) (ivs : List SeriesInterval) (intervalIdx : Nat)
    (graphs : List GraphData) : Option (List GraphData) :=
  match ivs with
  | [] => some graphs
  | iv :: rest =>
    match applyGroups qm intervalIdx iv.groups graphs with
    | none => none
    | some graphs2 => applyIntervals qm rest (intervalIdx + 1) graphs2

/-- UpdateGraphs: inner none clears the graphs (absent result or no
intervals); outer none is a panic (nil queryMeta dereference in makeGraphs,
or an out-of-range write).  The unused circle demo matrix computed at the top
of the Go function is never read and is omitted. -/
def graphsOf (meta : Option QueryMeta) (highlightedGroup : String)
    (result : Option QueryResult) : Option (Option (List GraphData)) :=
  match result with
  | none => some none
  | some r =>
    if r.buckets.series.length = 0 then some none
    else
      match meta with
      | none => none
      | some qm =>
        (applyIntervals qm r.buckets.series 0 (makeGraphs qm highlightedGroup)).map
          (fun gs => some gs)

/-- The state constants TYPING, QUERYING, REFRESHING. -/
def TYPING : Nat := 0

/-- State constant QUERYING. -/
def QUERYING : Nat := 1

/-- State constant REFRESHING. -/
def REFRESHING : Nat := 2

/-- The Query record: the committed text, the last result and the last error
(an error is modelled by its message string). -/
structure Query where
  apl : String
  result : Option QueryResult
  err : Option String
deriving DecidableEq, Repr

/-- The Model.  The textarea collaborator is carried as its focus flag and
its text; the spinner as its frame counter.  Field order and names follow the
source. -/
structure Model where
  ready : Bool
  taFocused : Bool
  taValue : String
  spinnerFrame : Nat
  state : Nat
  query : Query
  msg : String
  matchesTable : Option TableW
  matchesTableHighlightedIdx : Int
  graphs : Option (List GraphData)
  queryMeta : Option QueryMeta
  otherMsg : String
  totalsTable : Option TableW
  highlightedGroup : String
  refreshTimeout : Int
  pulseStep : Nat
deriving DecidableEq, Repr

/-- The commands the controller can return (tea.Cmd values, flattened out of
tea.Batch).  The refresh tick captures at scheduling time whether it will
deliver a re-run (the Go closure reads the captured model copy). -/
inductive Cmd where
  | quit : Cmd
  | spinTick : Cmd
  | queryCmd : String → Cmd
  | tickRefreshMsg : Cmd
  | tickRefreshOrReRun : Bool → Cmd
  | tickPulse : Cmd
  | highlightCmd : List String → Cmd
  | blink : Cmd
deriving DecidableEq, Repr

/-- The events delivered to the controller (tea.Msg): a key (by its String
form), a result arrival, the Msg closure produced by HighlightRow (carrying
the selected row), the three tick messages, the re-run message, and any
other message (the default branch). -/
inductive Event where
  | key : String → Event
  | resultMsg : String → Option QueryResult → Option String → Event
  | msgUpdate : List String → Event
  | spinnerTick : Event
  | refreshMsg : Event
  | reRunMsg : Event
  | pulseMsg : Event
  | other : Event
deriving DecidableEq, Repr

/-- initialModel: a focused empty textarea, state TYPING, an empty query,
pulseStep 9; every other field is the Go zero value (in particular
matchesTableHighlightedIdx is 0). -/
def initialModel : Model :=
  ⟨false, true, "", 0, TYPING, ⟨"", none, none⟩, "", none, 0, none, none, "",
   none, "", 0, 9⟩

/-- RunQuery: set the status message, enter QUERYING, and return the spinner
tick and the query command. -/
def RunQuery (m : Model) (apl : String) : Model × List Cmd :=
  ({ m with msg := "Running query...", state := QUERYING },
   [Cmd.spinTick, Cmd.queryCmd apl])

/-- SetRefreshing: arm the five-second countdown, enter REFRESHING, and
schedule the one-second tick. -/
def SetRefreshing (m : Model) : Model × Cmd :=
  ({ m with refreshTimeout := 5, state := REFRESHING }, Cmd.tickRefreshMsg)

/-- UpdateRefreshing: decrement the countdown and schedule a tick that will
deliver ReRunMsg when the captured countdown is at most 1, else RefreshMsg. -/
def UpdateRefreshing (m : Model) : Model × Cmd :=
  let t := m.refreshTimeout - 1
  ({ m with refreshTimeout := t }, Cmd.tickRefreshOrReRun (decide (t ≤ 1)))

/-- UpdatePulse: step the splash pulse cyclically and reschedule. -/
def UpdatePulse (m : Model) : Model × Cmd :=
  ({ m with pulseStep := if m.pulseStep ≤ 0 then 9 else m.pulseStep - 1 },
   Cmd.tickPulse)

/-- UpdateMatchesHighlight: move the matches highlight by inc, clamped to the
row range of the matches table; none is the nil dereference of a nil table. -/
def UpdateMatchesHighlight (m : Model) (inc : Int) : Option Model :=
  match m.matchesTable with
  | none => none
  | some t =>
    let next := m.matchesTableHighlightedIdx + inc
    let next := if next < 0 then 0
                else if (t.rows.length : Int) ≤ next then (t.rows.length : Int) - 1
                else next
    some { m with matchesTableHighlightedIdx := next }

/-- The bubbles table collaborator on a key: up and down move the cursor
within the rows, other keys leave it unchanged; rows, columns and styles are
never changed by the widget. -/
def tableUpdate (t : TableW) (s : String) : TableW :=
  if s = "up" then { t with cursor := t.cursor - 1 }
  else if s = "down" then
    { t with cursor := if t.cursor + 1 < t.rows.length then t.cursor + 1 else t.cursor }
  else t

/-- The bubbles table SelectedRow: the row under the cursor. -/
def selectedRow (t : TableW) : List String :=
  t.rows.getD t.cursor []

/-- The textarea collaborator on a forwarded key. -/
def taUpdate (v s : String) : String := v ++ s

/-- The tea.KeyMsg branch of Update. -/
def updateKey (m : Model) (s : String) : Option (Model × List Cmd) :=
  if !m.ready then some ({ m with ready := true }, [])
  else if s = "ctrl+c" then some (m, [Cmd.quit])
  else if m.state = TYPING then
    if s = "enter" then
      let q := m.taValue.trim
      if q ≠ "" then some (RunQuery m q) else some (m, [])
    else some ({ m with taValue := taUpdate m.taValue s }, [])
  else if m.state = REFRESHING then
    if s = "esc" then
      some ({ m with taFocused := true, state := TYPING }, [Cmd.blink])
    else
      match m.totalsTable with
      | some t =>
        if !t.focused then
          let t2 := { t with focused := true }
          some ({ m with totalsTable := some t2 }, [Cmd.highlightCmd (selectedRow t2)])
        else
          let t2 := tableUpdate t s
          some ({ m with totalsTable := some t2 }, [Cmd.highlightCmd (selectedRow t2)])
      | none =>
        match m.matchesTable with
        | some t =>
          let m1 := { m with matchesTable := some (tableUpdate t s) }
          if s = "down" then
            (UpdateMatchesHighlight m1 1).map (fun m2 => (m2, []))
          else if s = "up" then
            (UpdateMatchesHighlight m1 (-1)).map (fun m2 => (m2, []))
          else some (m1, [])
        | none => some (m, [])
  else some (m, [])

/-- The ResultMsg branch of Update: blur the textarea, clear the highlight,
store the query, and re-derive meta, matches table, totals table and graphs;
then arm the refresh countdown.  none is a panic in UpdateTotals or in
UpdateGraphs; a panic kills the process, so the field writes that precede it
are never observed and the whole branch is one record update guarded by the
two fallible derivations (the graphs derivation reads the meta of this very
result and the highlight just cleared to the empty string). -/
def updateResult (m : Model) (apl : String) (result : Option QueryResult)
    (err : Option String) : Option (Model × List Cmd) :=
  match totalsTableOf (metaOf result) result with
  | none => none
  | some tt =>
    match graphsOf (metaOf result) "" result with
    | none => none
    | some gs =>
      some ({ m with taFocused := false, highlightedGroup := "",
                     query := ⟨apl, result, err⟩,
                     queryMeta := metaOf result,
                     matchesTableHighlightedIdx := -1,
                     matchesTable := matchesTableOf result,
                     totalsTable := tt,
                     graphs := gs,
                     refreshTimeout := 5, state := REFRESHING },
            [Cmd.tickRefreshMsg])

/-- The Msg branch of Update: the closure built by HighlightRow rebuilds the
group map from the selected row under orderedGroupKeys (row cells are the
strings shown in the table), stores the resulting group key as the
highlight, and re-derives the graphs.  none is the nil queryMeta
dereference, an out-of-range row index, or a panic inside UpdateGraphs; as
above, a panic makes the preceding write unobservable. -/
def updateHighlightRow (m : Model) (row : List String) : Option (Model × List Cmd) :=
  match m.queryMeta with
  | none => none
  | some qm =>
    if qm.orderedGroupKeys.length ≤ row.length then
      match graphsOf m.queryMeta
          (getGroupKey qm.orderedGroupKeys
            (qm.orderedGroupKeys.zip (row.map Value.vstr)))
          m.query.result with
      | none => none
      | some gs =>
        some ({ m with
                highlightedGroup :=
                  getGroupKey qm.orderedGroupKeys
                    (qm.orderedGroupKeys.zip (row.map Value.vstr)),
                graphs := gs }, [])
    else none

/-- The Update dispatch over all events. -/
def Update (m : Model) (e : Event) : Option (Model × List Cmd) :=
  match e with
  | .key s => updateKey m s
  | .resultMsg apl result err => updateResult m apl result err
  | .msgUpdate row => updateHighlightRow m row
  | .spinnerTick =>
    if m.state = QUERYING then
      some ({ m with spinnerFrame := m.spinnerFrame + 1 }, [Cmd.spinTick])
    else some (m, [])
  | .refreshMsg =>
    if m.state = REFRESHING then
      let (m1, c) := UpdateRefreshing m
      some (m1, [c])
    else some (m, [])
  | .reRunMsg =>
    if m.state = REFRESHING then
      let (m1, cs) := RunQuery m m.query.apl
      some (m1, cs)
    else some (m, [])
  | .pulseMsg =>
    if !m.ready then
      let (m1, c) := UpdatePulse m
      some (m1, [c])
    else some (m, [])
  | .other => some (m, [])

/-- lipgloss horizontal join (rendering collaborator, modelled as
concatenation; no theorem inspects composed screen text). -/
def joinH (parts : List String) : String := String.intercalate "" parts

/-- lipgloss vertical join (rendering collaborator). -/
def joinV (parts : List String) : String := String.intercalate "\n" parts

/-- The padded tableStyle render (styling collaborator). -/
def tableStyleRender (s : String) : String := s

/-- The bubbles table View (rendering collaborator: the rows joined). -/
def tableView (t : TableW) : String :=
  String.intercalate "\n" (t.rows.map (String.intercalate " "))

/-- The textarea View (rendering collaborator). -/
def taView (m : Model) : String := m.taValue

/-- The spinner View (rendering collaborator). -/
def spinnerView (frame : Nat) : String := toString frame

/-- The asciigraph PlotMany render of one graph (painting collaborator,
identified by its caption). -/
def plotOne (g : GraphData) : String := g.title

/-- A lipgloss foreground-styled render (styling collaborator). -/
def styledRender (color s : String) : String := color ++ s

/-- json.MarshalIndent of a match (serialisation collaborator). -/
def matchJson (mt : MatchEntry) : String := mt.time

/-- appendIfNotEmpty as in the source. -/
def appendIfNotEmpty (slice : List String) (s : String) : List String :=
  if s ≠ "" then slice ++ [s] else slice

/-- ViewMatches: empty when there is no matches table; when a match is
highlighted, installs the highlight selected style on the shared table
widget (a mutation through the model pointer field) before rendering. -/
def ViewMatches (m : Model) : String × Model :=
  match m.matchesTable with
  | none => ("", m)
  | some t =>
    if m.matchesTableHighlightedIdx ≠ -1 then
      let t2 := { t with styles := SelStyle.highlight }
      (tableStyleRender (tableView t2), { m with matchesTable := some t2 })
    else (tableStyleRender (tableView t), m)

/-- ViewTotals: empty when there is no totals table; when a group highlight
is active, installs the highlight selected style on the shared table widget
before rendering. -/
def ViewTotals (m : Model) : String × Model :=
  match m.totalsTable with
  | none => ("", m)
  | some t =>
    if m.highlightedGroup ≠ "" then
      let t2 := { t with styles := SelStyle.highlight }
      (tableStyleRender (tableView t2), { m with totalsTable := some t2 })
    else (tableStyleRender (tableView t), m)

/-- ViewGraphs: empty when there are no graphs, else the bordered plots
joined horizontally. -/
def ViewGraphs (m : Model) : String :=
  match m.graphs with
  | none => ""
  | some gs => tableStyleRender (joinH (gs.map plotOne))

/-- ViewSpinner: the spinner and the running text, only while QUERYING. -/
def ViewSpinner (m : Model) : String :=
  if m.state ≠ QUERYING then "" else joinH [spinnerView m.spinnerFrame, "Running query..."]

/-- ViewRefreshTimeout: the countdown line, only while REFRESHING. -/
def ViewRefreshTimeout (m : Model) : String :=
  if m.state ≠ REFRESHING then "" else "Refresh in " ++ toString m.refreshTimeout

/-- ViewMatchDetails: empty when no matches table or no highlight; otherwise
the pretty JSON of the match at the highlighted index.  none is a panic: the
nil result dereference or an out-of-range index. -/
def ViewMatchDetails (m : Model) : Option String :=
  match m.matchesTable with
  | none => some ""
  | some _ =>
    if m.matchesTableHighlightedIdx = -1 then some ""
    else
      match m.query.result with
      | none => none
      | some r =>
        if 0 ≤ m.matchesTableHighlightedIdx ∧
               m.matchesTableHighlightedIdx < (r.matchList.length : Int) then
          some (tableStyleRender (matchJson
            (r.matchList.getD m.matchesTableHighlightedIdx.toNat ⟨"", []⟩)))
        else none

/-- The splash banner literal. -/
def splashBanner : String :=
  "\n █████  ██   ██ ██  ██████  ███    ███\n██   ██  ██ ██  ██ ██    ██ ████  ████\n███████   ███   ██ ██    ██ ██ ████ ██\n██   ██  ██ ██  ██ ██    ██ ██  ██  ██\n██   ██ ██   ██ ██  ██████  ██      ██ "

/-- ViewSplashScreen: the banner in the pulse color of the current step (the
pulse step stays in range, see the pulse update). -/
def ViewSplashScreen (m : Model) : String :=
  styledRender (PULSE_STEP_COLORS.getD m.pulseStep "") splashBanner

/-- ViewError: empty without an error, else the error line. -/
def ViewError (m : Model) : String :=
  match m.query.err with
  | none => ""
  | some e => "Error: " ++ e

/-- View: the splash when not ready; otherwise status line, text area, and
the non-empty optional fragments in source order.  ViewTotals and
ViewMatches mutate the shared table widgets, so the model they leave behind
is returned; none is a panic inside ViewMatchDetails. -/
def View (m : Model) : Option (String × Model) :=
  if !m.ready then some (ViewSplashScreen m, m)
  else
    let m1 := (ViewTotals m).2
    let m2 := (ViewMatches m1).2
    match ViewMatchDetails m2 with
    | none => none
    | some d =>
      some (joinV (appendIfNotEmpty (appendIfNotEmpty (appendIfNotEmpty
        (appendIfNotEmpty (appendIfNotEmpty
          [tableStyleRender (joinH [ViewSpinner m, ViewRefreshTimeout m]),
           tableStyleRender (taView m)]
          (ViewError m)) (ViewGraphs m)) ((ViewTotals m).1))
        ((ViewMatches m1).1)) d), m2)

/-- The models reachable by the update loop from the initial model, over any
event sequence (a panicking step has no successor). -/
inductive Reachable : Model → Prop where
  | init : Reachable initialModel
  | step (m : Model) (e : Event) (m2 : Model) (cs : List Cmd) :
      Reachable m → Update m e = some (m2, cs) → Reachable m2

/-- Scenario of spec section 8 item 3: two intervals, groups a and b under
the single dimension svc, one op avg; interval 0 carries 10 and 20, interval
1 carries only a = 15. -/
def rTwoGroups : QueryResult :=
  ⟨[],
   ⟨[⟨[⟨[("svc", .vstr "a")], [⟨"avg", .vfloat (.fin 10)⟩]⟩,
       ⟨[("svc", .vstr "b")], [⟨"avg", .vfloat (.fin 20)⟩]⟩]⟩,
     ⟨[⟨[("svc", .vstr "a")], [⟨"avg", .vfloat (.fin 15)⟩]⟩]⟩],
    [⟨[("svc", .vstr "a")], [⟨"avg", .vfloat (.fin 25)⟩]⟩,
     ⟨[("svc", .vstr "b")], [⟨"avg", .vfloat (.fin 20)⟩]⟩]⟩⟩

/-- Variant of the two-group scenario in which the present value of interval
1 is a non-floating scalar. -/
def rTwoGroupsStr : QueryResult :=
  ⟨[],
   ⟨[⟨[⟨[("svc", .vstr "a")], [⟨"avg", .vfloat (.fin 10)⟩]⟩,
       ⟨[("svc", .vstr "b")], [⟨"avg", .vfloat (.fin 20)⟩]⟩]⟩,
     ⟨[⟨[("svc", .vstr "a")], [⟨"avg", .vstr "oops"⟩]⟩]⟩],
    [⟨[("svc", .vstr "a")], [⟨"avg", .vfloat (.fin 25)⟩]⟩,
     ⟨[("svc", .vstr "b")], [⟨"avg", .vfloat (.fin 20)⟩]⟩]⟩⟩

/-- A result whose Buckets.Series is empty while Buckets.Totals is not. -/
def rSeriesEmptyTotals : QueryResult :=
  ⟨[], ⟨[], [⟨[("k", .vstr "a")], [⟨"count", .vfloat (.fin 1)⟩]⟩]⟩⟩

/-- A result with zero intervals, zero totals, and one match. -/
def rMatchOnly : QueryResult :=
  ⟨[⟨"2024-01-01 00:00:00 +0000 UTC", [("f", .vstr "v")]⟩], ⟨[], []⟩⟩

/-- A result whose totals carry a group key that never occurs in the series. -/
def rTotalsForeign : QueryResult :=
  ⟨[],
   ⟨[⟨[⟨[("k", .vstr "a")], [⟨"count", .vfloat (.fin 1)⟩]⟩]⟩],
    [⟨[("k", .vstr "z")], [⟨"count", .vfloat (.fin 5)⟩]⟩]⟩⟩

/-- A small fully-populated result used to build a model that has every
derived artifact. -/
def rGood : QueryResult :=
  ⟨[⟨"t0", [("f", .vstr "v")]⟩],
   ⟨[⟨[⟨[("k", .vstr "a")], [⟨"count", .vfloat (.fin 1)⟩]⟩]⟩],
    [⟨[("k", .vstr "a")], [⟨"count", .vfloat (.fin 1)⟩]⟩]⟩⟩

/-- A result whose first match enumerates its data map as a then b. -/
def rMapAB : QueryResult :=
  ⟨[⟨"t0", [("a", .vstr "1"), ("b", .vstr "2")]⟩], ⟨[], []⟩⟩

/-- The same result with the data map of the first match enumerated as b then
a: the same Go value, enumerated in another admissible order. -/
def rMapBA : QueryResult :=
  ⟨[⟨"t0", [("b", .vstr "2"), ("a", .vstr "1")]⟩], ⟨[], []⟩⟩

/-- Shape of a graph set: every matrix has the given row count and every row
the given length. -/
def GraphShape (rowCount rowLen : Nat) (gs : List GraphData) : Prop :=
  ∀ g ∈ gs, g.data.length = rowCount ∧ ∀ row ∈ g.data, row.length = rowLen

/-- Well-formedness of a delivered result sufficient for panic-free
processing: a non-empty totals section comes with a non-empty series, every
series entry group has a non-empty group map, and no series entry group
carries more aggregations than there are first-seen totals aliases. -/
def resultOk : Option QueryResult → Prop
  | none => True
  | some r =>
    (r.buckets.totals ≠ [] → r.buckets.series ≠ []) ∧
    (∀ g ∈ allSeriesGroups r, g.group ≠ [] ∧
       g.aggregations.length ≤ (opsOf r).length)

/-- The matches-table consistency invariant maintained by the update loop:
whenever a matches table exists, the stored result exists, the table rows
mirror the matches one-to-one and are non-empty, and an active highlight
index is inside the matches range. -/
def Inv (m : Model) : Prop :=
  ∀ t, m.matchesTable = some t →
    ∃ r, m.query.result = some r ∧
      t.rows.length = r.matchList.length ∧
      0 < t.rows.length ∧
      (m.matchesTableHighlightedIdx ≠ -1 →
        0 ≤ m.matchesTableHighlightedIdx ∧
        m.matchesTableHighlightedIdx < (r.matchList.length : Int))

/-- Forget the selected-row style of a table. -/
def stripTableStyles (t : TableW) : TableW := { t with styles := .construction }

/-- Forget the selected-row styles of both table widgets of a model. -/
def stripStyles (m : Model) : Model :=
  { m with matchesTable := m.matchesTable.map stripTableStyles,
           totalsTable := m.totalsTable.map stripTableStyles }

/-- Two association lists standing for the same Go map: one is a
re-enumeration (permutation) of the other, and a Go map binds each key at
most once, so the keys are nodup. -/
def goMapEquiv (m1 m2 : List (String × Value)) : Prop :=
  m1.Perm m2 ∧ (m1.map Prod.fst).Nodup

/-- Two entry groups that are the same Go value: group maps re-enumerated,
aggregations (an ordered slice) identical. -/
def egEquiv (a b : EntryGroup) : Prop :=
  goMapEquiv a.group b.group ∧ a.aggregations = b.aggregations

/-- Two series intervals that are the same Go value. -/
def intervalEquiv (a b : SeriesInterval) : Prop :=
  List.Forall₂ egEquiv a.groups b.groups

/-- Two match entries that are the same Go value: equal timestamps and data
maps that are re-enumerations of each other. -/
def matchEquiv (a b : MatchEntry) : Prop :=
  a.time = b.time ∧ goMapEquiv a.data b.data

/-- Two results that are the same Go value: every embedded map (interval
group maps, totals group maps, match data maps) possibly re-enumerated,
everything else equal. -/
def resultEquiv (r1 r2 : QueryResult) : Prop :=
  List.Forall₂ intervalEquiv r1.buckets.series r2.buckets.series ∧
  List.Forall₂ egEquiv r1.buckets.totals r2.buckets.totals ∧
  List.Forall₂ matchEquiv r1.matchList r2.matchList

/-- The value UpdateGraphs stores for one aggregation: the float if the
dynamic type is float64, else the NaN sentinel. -/
def writeValue (a : Aggregation) : F64 :=
  match a.value with
  | .vfloat f => f
  | _ => F64.nan

/-- The row an entry group targets: the binary search of its group key. -/
def rowIdxOf (qm : QueryMeta) (eg : EntryGroup) : Nat :=
  searchStrings qm.groups (getGroupKey qm.orderedGroupKeys eg.group)

/-- The aggregations UpdateGraphs writes into cell (k, g, i), in write
order: the k-th aggregation of every entry group of interval i whose group
key searches to row g. -/
def cellWrites (qm : QueryMeta) (r : QueryResult) (k g i : Nat) : List Aggregation :=
  ((r.buckets.series.getD i ⟨[]⟩).groups.filter
    (fun eg => rowIdxOf qm eg = g)).filterMap (fun eg => eg.aggregations[k]?)

/-- Reading cell (k, g, i) of a graph set; out-of-range reads default to the
zero float (the value make fills with). -/
def cellGet (gs : List GraphData) (k g i : Nat) : F64 :=
  (((gs.getD k ⟨"", [], []⟩).data.getD g []).getD i (F64.fin 0))

/-- A result whose single series group map enumerates as a then b. -/
def rGrpAB : QueryResult :=
  ⟨[],
   ⟨[⟨[⟨[("a", .vstr "1"), ("b", .vstr "2")],
        [⟨"count", .vfloat (.fin 3)⟩]⟩]⟩],
    [⟨[("a", .vstr "1"), ("b", .vstr "2")], [⟨"count", .vfloat (.fin 3)⟩]⟩]⟩⟩

/-- The same result with that group map enumerated as b then a. -/
def rGrpBA : QueryResult :=
  ⟨[],
   ⟨[⟨[⟨[("b", .vstr "2"), ("a", .vstr "1")],
        [⟨"count", .vfloat (.fin 3)⟩]⟩]⟩],
    [⟨[("b", .vstr "2"), ("a", .vstr "1")], [⟨"count", .vfloat (.fin 3)⟩]⟩]⟩⟩

/-- The model after a successful query for rGood (used as the previous
success of the error scenario). -/
def mPrev : Model :=
  ((updateResult initialModel "q" (some rGood) none).getD (initialModel, [])).1

/-- The model after delivering the matches-only result. -/
def mMatchOnly : Model :=
  ((updateResult initialModel "q" (some rMatchOnly) none).getD (initialModel, [])).1

/-- The meta projected from the two-group scenario. -/
def qmTG : QueryMeta :=
  ⟨["svc"], 1, 2, ["a", "b"], [⟨"avg"⟩],
   [("a", colorOf "a"), ("b", colorOf "b")]⟩

/-- The totals entry group of group a in the two-group scenario. -/
def totA : EntryGroup := ⟨[("svc", .vstr "a")], [⟨"avg", .vfloat (.fin 25)⟩]⟩

/-- A ready model holding a matches table with a highlighted match. -/
def mHi : Model :=
  { initialModel with
      ready := true,
      matchesTable := matchesTableOf (some rGood),
      matchesTableHighlightedIdx := 0,
      query := ⟨"q", some rGood, none⟩ }


/-- Characters with equal code points are equal. -/
theorem char_eq_of_toNat_eq (a b : Char) (h : a.toNat = b.toNat) : a = b := by
  have hv : a.val = b.val := by
    have h2 : a.val.toNat = b.val.toNat := h
    exact UInt32.toNat.inj h2
  cases a; cases b; simp_all

/-- Comparison of a list with itself is eq. -/
theorem cmpChars_self (a : List Char) : cmpChars a a = .eq := by
  induction a with
  | nil => rfl
  | cons c rest ih => simp [cmpChars, ih]

/-- Comparison eq characterises equality. -/
theorem cmpChars_eq_iff (a : List Char) :
    ∀ b, cmpChars a b = .eq ↔ a = b := by
  induction a with
  | nil =>
    intro b
    cases b with
    | nil => simp [cmpChars]
    | cons c rest => simp [cmpChars]
  | cons c rest ih =>
    intro b
    cases b with
    | nil => simp [cmpChars]
    | cons d bs =>
      simp only [cmpChars]
      by_cases h1 : c.toNat < d.toNat
      · rw [if_pos h1]
        constructor
        · intro hcon; exact absurd hcon (by simp)
        · intro hcon
          injection hcon with hc hrest
          subst hc
          omega
      · rw [if_neg h1]
        by_cases h2 : d.toNat < c.toNat
        · rw [if_pos h2]
          constructor
          · intro hcon; exact absurd hcon (by simp)
          · intro hcon
            injection hcon with hc hrest
            subst hc
            omega
        · rw [if_neg h2]
          have hcd : c = d := char_eq_of_toNat_eq c d (by omega)
          subst hcd
          rw [ih bs]
          constructor
          · intro hr; rw [hr]
          · intro hr; injection hr

/-- Comparison gt of one direction is lt of the other. -/
theorem cmpChars_gt_iff (a : List Char) :
    ∀ b, cmpChars a b = .gt ↔ cmpChars b a = .lt := by
  induction a with
  | nil =>
    intro b
    cases b with
    | nil => simp [cmpChars]
    | cons c rest => simp [cmpChars]
  | cons c rest ih =>
    intro b
    cases b with
    | nil => simp [cmpChars]
    | cons d bs =>
      simp only [cmpChars]
      by_cases h1 : c.toNat < d.toNat
      · rw [if_pos h1, if_neg (by omega : ¬ d.toNat < c.toNat), if_pos h1]
        simp
      · by_cases h2 : d.toNat < c.toNat
        · rw [if_neg h1, if_pos h2, if_pos h2]
          simp
        · rw [if_neg h1, if_neg h2, if_neg h2, if_neg h1]
          exact ih bs

/-- Transitivity of the at-most comparison. -/
theorem cmpChars_le_trans (a : List Char) :
    ∀ b c, cmpChars a b ≠ .gt → cmpChars b c ≠ .gt → cmpChars a c ≠ .gt := by
  induction a with
  | nil =>
    intro b c h1 h2
    cases c with
    | nil => simp [cmpChars]
    | cons z cs => simp [cmpChars]
  | cons x as ih =>
    intro b c h1 h2
    cases b with
    | nil => simp [cmpChars] at h1
    | cons y bs =>
      cases c with
      | nil => simp [cmpChars] at h2
      | cons z cs =>
        simp only [cmpChars] at h1 h2 ⊢
        by_cases hxy : x.toNat < y.toNat
        · by_cases hyz : y.toNat < z.toNat
          · rw [if_pos (by omega : x.toNat < z.toNat)]; simp
          · by_cases hzy : z.toNat < y.toNat
            · rw [if_neg hyz, if_pos hzy] at h2; simp at h2
            · rw [if_pos (by omega : x.toNat < z.toNat)]; simp
        · by_cases hyx : y.toNat < x.toNat
          · rw [if_neg hxy, if_pos hyx] at h1; simp at h1
          · rw [if_neg hxy, if_neg hyx] at h1
            by_cases hyz : y.toNat < z.toNat
            · rw [if_pos (by omega : x.toNat < z.toNat)]; simp
            · by_cases hzy : z.toNat < y.toNat
              · rw [if_neg hyz, if_pos hzy] at h2; simp at h2
              · rw [if_neg hyz, if_neg hzy] at h2
                rw [if_neg (by omega : ¬ x.toNat < z.toNat),
                    if_neg (by omega : ¬ z.toNat < x.toNat)]
                exact ih bs cs h1 h2

/-- The Go string order is reflexive. -/
theorem strLe_refl (a : String) : strLe a a = true := by
  simp [strLe, cmpChars_self]

/-- The Go string order is total. -/
theorem strLe_total (a b : String) : strLe a b = true ∨ strLe b a = true := by
  by_cases h : cmpChars a.data b.data = .gt
  · right
    have hlt := (cmpChars_gt_iff a.data b.data).mp h
    simp [strLe, hlt]
  · left
    simp [strLe, h]

/-- The Go string order is transitive. -/
theorem strLe_trans (a b c : String) (h1 : strLe a b = true)
    (h2 : strLe b c = true) : strLe a c = true := by
  simp only [strLe, ne_eq, decide_eq_true_eq] at h1 h2 ⊢
  exact cmpChars_le_trans a.data b.data c.data h1 h2

/-- The Go string order is antisymmetric. -/
theorem strLe_antisymm (a b : String) (h1 : strLe a b = true)
    (h2 : strLe b a = true) : a = b := by
  simp only [strLe, ne_eq, decide_eq_true_eq] at h1 h2
  cases hcmp : cmpChars a.data b.data with
  | lt =>
    have := (cmpChars_gt_iff b.data a.data).mpr hcmp
    exact absurd this h2
  | eq =>
    have hdata := (cmpChars_eq_iff a.data b.data).mp hcmp
    cases a; cases b; simp_all
  | gt => exact absurd hcmp h1

/-- The fueled Go binary search, specified for a monotone predicate and
sufficient fuel: the result splits the range into a false prefix and a true
suffix. -/
theorem goSearchFuel_spec (f : Nat → Bool) (n : Nat)
    (hmono : ∀ p q, p ≤ q → q < n → f p = true → f q = true) :
    ∀ d i j, j - i ≤ d → j ≤ n →
      (∀ k, k < i → f k = false) →
      (∀ k, j ≤ k → k < n → f k = true) →
      i ≤ j →
      (∀ k, k < goSearchFuel f d i j → f k = false) ∧
      (∀ k, goSearchFuel f d i j ≤ k → k < n → f k = true) ∧
      goSearchFuel f d i j ≤ j := by
  intro d
  induction d with
  | zero =>
    intro i j hd hjn hlow hhigh hij
    simp only [goSearchFuel]
    exact ⟨hlow, fun k hk1 hk2 => hhigh k (by omega) hk2, by omega⟩
  | succ d ih =>
    intro i j hd hjn hlow hhigh hij
    simp only [goSearchFuel]
    by_cases hlt : i < j
    · rw [if_pos hlt]
      by_cases hf : f ((i + j) / 2) = true
      · rw [if_pos hf]
        obtain ⟨h1, h2, h3⟩ :=
          ih i ((i + j) / 2) (by omega) (by omega) hlow
            (fun k hk1 hk2 => hmono ((i + j) / 2) k hk1 hk2 hf) (by omega)
        exact ⟨h1, h2, by omega⟩
      · rw [if_neg hf]
        have hfalse : f ((i + j) / 2) = false := by
          cases hc : f ((i + j) / 2) with
          | false => rfl
          | true => exact absurd hc hf
        refine ih ((i + j) / 2 + 1) j (by omega) hjn ?_ hhigh (by omega)
        intro k hk
        by_cases hki : k < i
        · exact hlow k hki
        · cases hfk : f k with
          | false => rfl
          | true =>
            have hmid : f ((i + j) / 2) = true :=
              hmono k ((i + j) / 2) (by omega) (by omega) hfk
            rw [hmid] at hfalse
            exact absurd hfalse (by simp)
    · rw [if_neg hlt]
      exact ⟨hlow, fun k hk1 hk2 => hhigh k (by omega) hk2, by omega⟩

/-- In a list sorted by the Go string order the entry at a smaller index is
no greater. -/
theorem getD_le_getD_of_sorted (a : List String)
    (hs : List.Sorted strLeP a) (p q : Nat) (hpq : p ≤ q)
    (hq : q < a.length) : strLe (a.getD p "") (a.getD q "") = true := by
  have hp : p < a.length := lt_of_le_of_lt hpq hq
  rw [List.getD_eq_getElem a "" hp, List.getD_eq_getElem a "" hq]
  rcases Nat.eq_or_lt_of_le hpq with h | h
  · subst h; exact strLe_refl _
  · exact List.pairwise_iff_get.mp hs ⟨p, hp⟩ ⟨q, hq⟩ h

/-- sort.SearchStrings on a sorted list containing the needle returns an
in-range index holding the needle. -/
theorem searchStrings_found (a : List String) (x : String)
    (hs : List.Sorted strLeP a) (hx : x ∈ a) :
    searchStrings a x < a.length ∧ a.getD (searchStrings a x) "" = x := by
  have hmono : ∀ p q, p ≤ q → q < a.length →
      (fun h => strLe x (a.getD h "")) p = true →
      (fun h => strLe x (a.getD h "")) q = true := by
    intro p q hpq hq hp
    exact strLe_trans _ _ _ hp (getD_le_getD_of_sorted a hs p q hpq hq)
  obtain ⟨h1, h2, h3⟩ :=
    goSearchFuel_spec (fun h => strLe x (a.getD h "")) a.length hmono
      (a.length - 0) 0 a.length (by omega) (le_refl _)
      (by intro k hk; exact absurd hk (Nat.not_lt_zero k))
      (by intro k hk1 hk2; exact absurd hk2 (by omega))
      (by omega)
  have hss : searchStrings a x =
      goSearchFuel (fun h => strLe x (a.getD h "")) (a.length - 0) 0 a.length := rfl
  rw [← hss] at h1 h2 h3
  obtain ⟨p, hp, hgp⟩ := List.mem_iff_getElem.mp hx
  have hpd : a.getD p "" = x := by rw [List.getD_eq_getElem a "" hp]; exact hgp
  have hfp : strLe x (a.getD p "") = true := by rw [hpd]; exact strLe_refl x
  have hrp : searchStrings a x ≤ p := by
    by_contra hcon
    have hcontr := h1 p (by omega)
    rw [hfp] at hcontr
    exact absurd hcontr (by simp)
  have hrn : searchStrings a x < a.length := lt_of_le_of_lt hrp hp
  refine ⟨hrn, ?_⟩
  have hfr := h2 (searchStrings a x) (le_refl _) hrn
  have hle : strLe (a.getD (searchStrings a x) "") x = true := by
    have hcmp := getD_le_getD_of_sorted a hs (searchStrings a x) p hrp hp
    rw [hpd] at hcmp
    exact hcmp
  exact strLe_antisymm _ _ hle hfr

/-- The sorted group list is sorted by the Go string order. -/
theorem sortStrings_sorted (l : List String) :
    List.Sorted strLeP (sortStrings l) := by
  haveI : IsTotal String strLeP := ⟨fun a b => strLe_total a b⟩
  haveI : IsTrans String strLeP := ⟨fun a b c => strLe_trans a b c⟩
  exact List.sorted_insertionSort strLeP l

/-- Sorting preserves membership. -/
theorem sortStrings_mem (x : String) (l : List String) :
    x ∈ sortStrings l ↔ x ∈ l :=
  (List.perm_insertionSort strLeP l).mem_iff

/-- Sorting a non-empty list yields a non-empty list. -/
theorem sortStrings_ne_nil (l : List String) (h : l ≠ []) : sortStrings l ≠ [] := by
  intro hcon
  have hperm := List.perm_insertionSort strLeP l
  rw [sortStrings] at hcon
  rw [hcon] at hperm
  exact h (hperm.symm.eq_nil)

/-- The series walk never changes a non-empty orderedGroupKeys. -/
theorem metaStep_ogk_stable (st : MetaWalk) (g : EntryGroup)
    (h : st.orderedGroupKeys ≠ []) :
    (metaStep st g).orderedGroupKeys = st.orderedGroupKeys := by
  simp only [metaStep]
  have hlen : ¬ (st.orderedGroupKeys.length = 0 ∧ 0 < g.group.length) := by
    intro hcon
    exact h (List.length_eq_zero.mp hcon.1)
  rw [if_neg hlen]

/-- Folding the series walk never changes a non-empty orderedGroupKeys. -/
theorem foldl_metaStep_ogk_stable (l : List EntryGroup) :
    ∀ st : MetaWalk, st.orderedGroupKeys ≠ [] →
      (l.foldl metaStep st).orderedGroupKeys = st.orderedGroupKeys := by
  induction l with
  | nil => intro st h; rfl
  | cons g rest ih =>
    intro st h
    rw [List.foldl_cons, ih (metaStep st g) (by rw [metaStep_ogk_stable st g h]; exact h),
        metaStep_ogk_stable st g h]

/-- The series walk only grows the group list. -/
theorem foldl_metaStep_groups_mono (l : List EntryGroup) :
    ∀ st : MetaWalk, ∀ k ∈ st.groups, k ∈ (l.foldl metaStep st).groups := by
  induction l with
  | nil => intro st k hk; exact hk
  | cons g rest ih =>
    intro st k hk
    rw [List.foldl_cons]
    refine ih (metaStep st g) k ?_
    simp only [metaStep]
    split
    all_goals split
    all_goals first
      | exact hk
      | exact List.mem_append_left _ hk

/-- One step of the series walk records the key of its entry group, computed
with the orderedGroupKeys left by the step. -/
theorem metaStep_adds_key (st : MetaWalk) (g : EntryGroup) :
    getGroupKey (metaStep st g).orderedGroupKeys g.group ∈ (metaStep st g).groups := by
  simp only [metaStep]
  split
  all_goals split
  all_goals first
    | next hc => exact List.mem_of_elem_eq_true hc
    | next hc => exact List.mem_append_right _ (List.mem_singleton.mpr rfl)

/-- When an entry group has a non-empty group map, the step leaves a
non-empty orderedGroupKeys. -/
theorem metaStep_ogk_ne_nil (st : MetaWalk) (g : EntryGroup)
    (h : g.group ≠ []) : (metaStep st g).orderedGroupKeys ≠ [] := by
  simp only [metaStep]
  by_cases hc : st.orderedGroupKeys.length = 0 ∧ 0 < g.group.length
  · rw [if_pos hc]
    exact sortStrings_ne_nil _ (by simpa using h)
  · rw [if_neg hc]
    have hg : 0 < g.group.length := List.length_pos.mpr h
    intro hcon
    exact hc ⟨by rw [hcon]; rfl, hg⟩

/-- Every entry group of the walk, when all carry non-empty group maps, has
its final-keyed group key recorded in the final group list. -/
theorem keys_mem_walk (l : List EntryGroup) :
    ∀ st : MetaWalk, (∀ g ∈ l, g.group ≠ []) →
      ∀ g ∈ l, getGroupKey (l.foldl metaStep st).orderedGroupKeys g.group ∈
        (l.foldl metaStep st).groups := by
  induction l with
  | nil => intro st hne g hg; exact absurd hg (List.not_mem_nil g)
  | cons g0 rest ih =>
    intro st hne g hg
    have hne0 : g0.group ≠ [] := hne g0 (List.mem_cons_self g0 rest)
    have hogk : (metaStep st g0).orderedGroupKeys ≠ [] := metaStep_ogk_ne_nil st g0 hne0
    rw [List.foldl_cons]
    rcases List.mem_cons.mp hg with heq | htail
    · subst heq
      rw [foldl_metaStep_ogk_stable rest (metaStep st g) hogk]
      exact foldl_metaStep_groups_mono rest (metaStep st g) _ (metaStep_adds_key st g)
    · exact ih (metaStep st g0) (fun g2 hg2 => hne g2 (List.mem_cons_of_mem g0 hg2)) g htail

/-- makeGraphs produces one graph per op. -/
theorem makeGraphs_length (qm : QueryMeta) (hl : String) :
    (makeGraphs qm hl).length = qm.ops.length := by
  simp [makeGraphs]

/-- makeGraphs produces groups-by-intervals matrices. -/
theorem makeGraphs_shape (qm : QueryMeta) (hl : String) :
    GraphShape qm.groups.length qm.intervals (makeGraphs qm hl) := by
  intro g hg
  simp only [makeGraphs, List.mem_map] at hg
  obtain ⟨op, hop, heq⟩ := hg
  subst heq
  refine ⟨by simp, ?_⟩
  intro row hrow
  have hrepl := List.eq_of_mem_replicate hrow
  subst hrepl
  simp

/-- A successful aggregation write preserves the matrix shapes and the graph
count. -/
theorem applyAgg_pres (rowIdx intervalIdx k : Nat) (a : Aggregation)
    (gs gs2 : List GraphData) (G I : Nat)
    (h : applyAgg rowIdx intervalIdx k a gs = some gs2)
    (hs : GraphShape G I gs) :
    GraphShape G I gs2 ∧ gs2.length = gs.length := by
  unfold applyAgg at h
  split at h
  · exact absurd h (by simp)
  next graph hk =>
    split at h
    · exact absurd h (by simp)
    next row hrow =>
      unfold setCell at h
      by_cases hlen : intervalIdx < row.length
      · simp only [hlen, if_true, Option.map_some'] at h
        injection h with h2
        subst h2
        have hmem : graph ∈ gs := by
          obtain ⟨hklen, hval⟩ := List.getElem?_eq_some.mp hk
          exact hval ▸ List.getElem_mem hklen
        have hrowmem : row ∈ graph.data := by
          obtain ⟨hrlen, hval⟩ := List.getElem?_eq_some.mp hrow
          exact hval ▸ List.getElem_mem hrlen
        constructor
        · intro g2 hg2
          rcases List.mem_or_eq_of_mem_set hg2 with hmem2 | heq2
          · exact hs g2 hmem2
          · subst heq2
            obtain ⟨hdlen, hrows⟩ := hs graph hmem
            refine ⟨by simpa using hdlen, ?_⟩
            intro row2 hrow2
            rcases List.mem_or_eq_of_mem_set hrow2 with hmem3 | heq3
            · exact hrows row2 hmem3
            · subst heq3
              simpa using hrows row hrowmem
        · simp
      · simp [hlen] at h

/-- A successful aggregation-loop run preserves shapes and graph count. -/
theorem applyAggs_pres (aggs : List Aggregation) :
    ∀ (rowIdx intervalIdx k : Nat) (gs gs2 : List GraphData) (G I : Nat),
      applyAggs rowIdx intervalIdx aggs k gs = some gs2 →
      GraphShape G I gs → GraphShape G I gs2 ∧ gs2.length = gs.length := by
  induction aggs with
  | nil =>
    intro rowIdx intervalIdx k gs gs2 G I h hs
    simp only [applyAggs] at h
    cases h
    exact ⟨hs, rfl⟩
  | cons a rest ih =>
    intro rowIdx intervalIdx k gs gs2 G I h hs
    simp only [applyAggs] at h
    cases hstep : applyAgg rowIdx intervalIdx k a gs with
    | none => rw [hstep] at h; exact absurd h (by simp)
    | some gsMid =>
      rw [hstep] at h
      obtain ⟨hs1, hl1⟩ := applyAgg_pres rowIdx intervalIdx k a gs gsMid G I hstep hs
      obtain ⟨hs2, hl2⟩ := ih rowIdx intervalIdx (k + 1) gsMid gs2 G I h hs1
      exact ⟨hs2, by omega⟩

/-- A successful group-loop run preserves shapes and graph count. -/
theorem applyGroups_pres (egs : List EntryGroup) :
    ∀ (qm : QueryMeta) (intervalIdx : Nat) (gs gs2 : List GraphData) (G I : Nat),
      applyGroups qm intervalIdx egs gs = some gs2 →
      GraphShape G I gs → GraphShape G I gs2 ∧ gs2.length = gs.length := by
  induction egs with
  | nil =>
    intro qm intervalIdx gs gs2 G I h hs
    simp only [applyGroups] at h
    cases h
    exact ⟨hs, rfl⟩
  | cons eg rest ih =>
    intro qm intervalIdx gs gs2 G I h hs
    simp only [applyGroups, applyGroup] at h
    cases hstep : applyAggs
        (searchStrings qm.groups (getGroupKey qm.orderedGroupKeys eg.group))
        intervalIdx eg.aggregations 0 gs with
    | none => rw [hstep] at h; exact absurd h (by simp)
    | some gsMid =>
      rw [hstep] at h
      obtain ⟨hs1, hl1⟩ := applyAggs_pres eg.aggregations _ intervalIdx 0 gs gsMid G I hstep hs
      obtain ⟨hs2, hl2⟩ := ih qm intervalIdx gsMid gs2 G I h hs1
      exact ⟨hs2, by omega⟩

/-- A successful interval-loop run preserves shapes and graph count. -/
theorem applyIntervals_pres (ivs : List SeriesInterval) :
    ∀ (qm : QueryMeta) (intervalIdx : Nat) (gs gs2 : List GraphData) (G I : Nat),
      applyIntervals qm ivs intervalIdx gs = some gs2 →
      GraphShape G I gs → GraphShape G I gs2 ∧ gs2.length = gs.length := by
  induction ivs with
  | nil =>
    intro qm intervalIdx gs gs2 G I h hs
    simp only [applyIntervals] at h
    cases h
    exact ⟨hs, rfl⟩
  | cons iv rest ih =>
    intro qm intervalIdx gs gs2 G I h hs
    simp only [applyIntervals] at h
    cases hstep : applyGroups qm intervalIdx iv.groups gs with
    | none => rw [hstep] at h; exact absurd h (by simp)
    | some gsMid =>
      rw [hstep] at h
      obtain ⟨hs1, hl1⟩ := applyGroups_pres iv.groups qm intervalIdx gs gsMid G I hstep hs
      obtain ⟨hs2, hl2⟩ := ih qm (intervalIdx + 1) gsMid gs2 G I h hs1
      exact ⟨hs2, by omega⟩

/-- An in-range aggregation write succeeds. -/
theorem applyAgg_some (rowIdx intervalIdx k : Nat) (a : Aggregation)
    (gs : List GraphData) (G I : Nat) (hs : GraphShape G I gs)
    (hk : k < gs.length) (hrow : rowIdx < G) (hint : intervalIdx < I) :
    ∃ gs2, applyAgg rowIdx intervalIdx k a gs = some gs2 := by
  unfold applyAgg
  have hkk : gs[k]? = some gs[k] := List.getElem?_eq_getElem hk
  obtain ⟨hdlen, hrows⟩ := hs gs[k] (List.getElem_mem hk)
  have hrowlt : rowIdx < gs[k].data.length := by omega
  have hrr : gs[k].data[rowIdx]? = some (gs[k].data[rowIdx]) :=
    List.getElem?_eq_getElem hrowlt
  have hrl : gs[k].data[rowIdx].length = I := hrows _ (List.getElem_mem hrowlt)
  simp only [hkk, hrr]
  unfold setCell
  rw [if_pos (by omega)]
  exact ⟨_, rfl⟩

/-- An aggregation loop whose graph indices stay in range succeeds and
preserves shapes. -/
theorem applyAggs_some (aggs : List Aggregation) :
    ∀ (rowIdx intervalIdx k : Nat) (gs : List GraphData) (G I : Nat),
      GraphShape G I gs → aggs.length + k ≤ gs.length → rowIdx < G →
      intervalIdx < I →
      ∃ gs2, applyAggs rowIdx intervalIdx aggs k gs = some gs2 ∧
        GraphShape G I gs2 ∧ gs2.length = gs.length := by
  induction aggs with
  | nil =>
    intro rowIdx intervalIdx k gs G I hs hlen hrow hint
    exact ⟨gs, rfl, hs, rfl⟩
  | cons a rest ih =>
    intro rowIdx intervalIdx k gs G I hs hlen hrow hint
    obtain ⟨gsMid, hMid⟩ :=
      applyAgg_some rowIdx intervalIdx k a gs G I hs (by simp at hlen; omega) hrow hint
    obtain ⟨hsMid, hlMid⟩ := applyAgg_pres rowIdx intervalIdx k a gs gsMid G I hMid hs
    obtain ⟨gs2, h2, hs2, hl2⟩ :=
      ih rowIdx intervalIdx (k + 1) gsMid G I hsMid (by simp at hlen; omega) hrow hint
    refine ⟨gs2, ?_, hs2, by omega⟩
    simp only [applyAggs]
    rw [hMid]
    exact h2

/-- A group loop over groups whose keys live in the sorted group list
succeeds and preserves shapes. -/
theorem applyGroups_some (egs : List EntryGroup) :
    ∀ (qm : QueryMeta) (intervalIdx : Nat) (gs : List GraphData) (I N : Nat),
      List.Sorted strLeP qm.groups →
      GraphShape qm.groups.length I gs → gs.length = N → intervalIdx < I →
      (∀ g ∈ egs, getGroupKey qm.orderedGroupKeys g.group ∈ qm.groups ∧
         g.aggregations.length ≤ N) →
      ∃ gs2, applyGroups qm intervalIdx egs gs = some gs2 ∧
        GraphShape qm.groups.length I gs2 ∧ gs2.length = N := by
  induction egs with
  | nil =>
    intro qm intervalIdx gs I N hsort hs hN hint hcond
    exact ⟨gs, rfl, hs, hN⟩
  | cons eg rest ih =>
    intro qm intervalIdx gs I N hsort hs hN hint hcond
    obtain ⟨hkey, haggs⟩ := hcond eg (List.mem_cons_self eg rest)
    have hfound := searchStrings_found qm.groups
      (getGroupKey qm.orderedGroupKeys eg.group) hsort hkey
    obtain ⟨gsMid, hMid, hsMid, hlMid⟩ :=
      applyAggs_some eg.aggregations
        (searchStrings qm.groups (getGroupKey qm.orderedGroupKeys eg.group))
        intervalIdx 0 gs qm.groups.length I hs (by omega) hfound.1 hint
    obtain ⟨gs2, h2, hs2, hl2⟩ :=
      ih qm intervalIdx gsMid I N hsort hsMid (by omega) hint
        (fun g hg => hcond g (List.mem_cons_of_mem eg hg))
    refine ⟨gs2, ?_, hs2, hl2⟩
    simp only [applyGroups, applyGroup]
    rw [hMid]
    exact h2

/-- An interval loop over well-placed intervals succeeds and preserves
shapes. -/
theorem applyIntervals_some (ivs : List SeriesInterval) :
    ∀ (qm : QueryMeta) (intervalIdx : Nat) (gs : List GraphData) (I N : Nat),
      List.Sorted strLeP qm.groups →
      GraphShape qm.groups.length I gs → gs.length = N →
      intervalIdx + ivs.length ≤ I →
      (∀ iv ∈ ivs, ∀ g ∈ iv.groups,
         getGroupKey qm.orderedGroupKeys g.group ∈ qm.groups ∧
         g.aggregations.length ≤ N) →
      ∃ gs2, applyIntervals qm ivs intervalIdx gs = some gs2 ∧
        GraphShape qm.groups.length I gs2 ∧ gs2.length = N := by
  induction ivs with
  | nil =>
    intro qm intervalIdx gs I N hsort hs hN hbound hcond
    exact ⟨gs, rfl, hs, hN⟩
  | cons iv rest ih =>
    intro qm intervalIdx gs I N hsort hs hN hbound hcond
    obtain ⟨gsMid, hMid, hsMid, hlMid⟩ :=
      applyGroups_some iv.groups qm intervalIdx gs I N hsort hs hN
        (by simp at hbound; omega)
        (hcond iv (List.mem_cons_self iv rest))
    obtain ⟨gs2, h2, hs2, hl2⟩ :=
      ih qm (intervalIdx + 1) gsMid I N hsort hsMid hlMid
        (by simp at hbound ⊢; omega)
        (fun iv2 hiv2 => hcond iv2 (List.mem_cons_of_mem iv hiv2))
    refine ⟨gs2, ?_, hs2, hl2⟩
    simp only [applyIntervals]
    rw [hMid]
    exact h2

/-- C7 counterexample: before the first key (ready false) a ctrl+c key is
consumed by the bootstrap branch: the model is mutated (ready is set) and no
quit command is returned, so the claimed termination does not happen. -/
theorem c7_counterexample :
    Update initialModel (.key "ctrl+c") =
      some ({ initialModel with ready := true }, []) ∧
    Cmd.quit ∉ ([] : List Cmd) ∧
    ({ initialModel with ready := true } : Model) ≠ initialModel := by
  refine ⟨rfl, by simp, by decide⟩

/-- C7 amended: once ready, a ctrl+c key in any state returns the model
unchanged together with the quit command. -/
theorem c7_theorem (m : Model) (h : m.ready = true) :
    Update m (.key "ctrl+c") = some (m, [Cmd.quit]) := by
  simp [Update, updateKey, h]

/-- C7 witness. -/
theorem c7_witness :
    Update { initialModel with ready := true } (.key "ctrl+c") =
      some ({ initialModel with ready := true }, [Cmd.quit]) :=
  c7_theorem { initialModel with ready := true } rfl

/-- C1 counterexample: after a successful query (artifacts present), a
transport failure delivered as ResultArrived with a null result clears the
graphs and both tables instead of leaving the previous artifacts visible. -/
theorem c1_counterexample :
    mPrev.graphs ≠ none ∧ mPrev.matchesTable ≠ none ∧ mPrev.totalsTable ≠ none ∧
    ∃ m2 cs, Update mPrev (.resultMsg "q" none (some "boom")) = some (m2, cs) ∧
      m2.query.err = some "boom" ∧
      m2.graphs = none ∧ m2.matchesTable = none ∧ m2.totalsTable = none := by
  refine ⟨by decide, by decide, by decide, _, _, rfl, rfl, rfl, rfl, rfl⟩

/-- C1 amended: on a transport failure (null result, non-null error) the
error is stored and rendered by ViewError, the state moves to Refreshing
with the countdown armed at 5, but every derived artifact is cleared to
null rather than kept. -/
theorem c1_theorem (m : Model) (apl e : String) :
    ∃ m2, Update m (.resultMsg apl none (some e)) = some (m2, [Cmd.tickRefreshMsg]) ∧
      m2.query = ⟨apl, none, some e⟩ ∧
      ViewError m2 = "Error: " ++ e ∧
      m2.state = REFRESHING ∧ m2.refreshTimeout = 5 ∧
      m2.queryMeta = none ∧ m2.matchesTable = none ∧
      m2.totalsTable = none ∧ m2.graphs = none := by
  refine ⟨_, rfl, rfl, rfl, rfl, rfl, rfl, rfl, rfl, rfl⟩

/-- C3 counterexample: a ResultArrived event whose result has an empty
Series but a non-empty Totals panics in UpdateTotals (nil queryMeta
dereference); the controller does not survive it. -/
theorem c3_counterexample :
    Update initialModel (.resultMsg "q" (some rSeriesEmptyTotals) none) = none := rfl

/-- C4 counterexample: a result with zero bucket intervals but a non-empty
Matches list still produces a matches table, so not every downstream
artifact is null. -/
theorem c4_counterexample :
    Update initialModel (.resultMsg "q" (some rMatchOnly) none) =
      some (mMatchOnly, [Cmd.tickRefreshMsg]) ∧
    mMatchOnly.queryMeta = none ∧ mMatchOnly.graphs = none ∧
    mMatchOnly.totalsTable = none ∧ mMatchOnly.matchesTable ≠ none := by
  refine ⟨rfl, rfl, rfl, rfl, by decide⟩

/-- C4 amended: when the result is absent, or has zero intervals and also no
matches and no totals, the derived meta and every downstream artifact are
null. -/
theorem c4_theorem (m : Model) (apl : String) (result : Option QueryResult)
    (err : Option String)
    (h : ∀ r, result = some r →
      r.buckets.series = [] ∧ r.matchList = [] ∧ r.buckets.totals = []) :
    ∃ m2 cs, Update m (.resultMsg apl result err) = some (m2, cs) ∧
      m2.queryMeta = none ∧ m2.graphs = none ∧
      m2.matchesTable = none ∧ m2.totalsTable = none := by
  cases result with
  | none => exact ⟨_, _, rfl, rfl, rfl, rfl, rfl⟩
  | some r =>
    obtain ⟨hser, hmat, htot⟩ := h r rfl
    simp only [Update, updateResult, metaOf, matchesTableOf, totalsTableOf, graphsOf,
               SetRefreshing, hser, hmat, htot]
    exact ⟨_, _, rfl, rfl, rfl, rfl, rfl⟩

/-- C4 witness. -/
theorem c4_witness :
    ∃ m2 cs,
      Update initialModel (.resultMsg "q" (some ⟨[], ⟨[], []⟩⟩) none) = some (m2, cs) ∧
      m2.queryMeta = none ∧ m2.graphs = none ∧
      m2.matchesTable = none ∧ m2.totalsTable = none :=
  c4_theorem initialModel "q" (some ⟨[], ⟨[], []⟩⟩) none
    (by intro r hr; cases hr; exact ⟨rfl, rfl, rfl⟩)

/-- C2 counterexample: in the two-group scenario of the spec the missing
cell (group b, interval 1) holds the zero-initialised finite value 0, not
the claimed NaN sentinel. -/
theorem c2_counterexample :
    (graphsOf (metaOf (some rTwoGroups)) "" (some rTwoGroups)).map
        (Option.map (List.map GraphData.data)) =
      some (some [[[.fin 10, .fin 15], [.fin 20, .fin 0]]]) ∧
    F64.fin 0 ≠ F64.nan := by
  exact ⟨by decide, by decide⟩

/-- C8: for every successfully projected result with non-null meta, there is
one graph per op and every graph matrix is groups-by-intervals. -/
theorem c8_theorem (r : QueryResult) (qm : QueryMeta) (hl : String)
    (gs : List GraphData) (_hm : metaOf (some r) = some qm)
    (hg : graphsOf (some qm) hl (some r) = some (some gs)) :
    gs.length = qm.ops.length ∧
    ∀ g ∈ gs, g.data.length = qm.groups.length ∧
      ∀ row ∈ g.data, row.length = qm.intervals := by
  simp only [graphsOf] at hg
  by_cases hser : r.buckets.series.length = 0
  · rw [if_pos hser] at hg; exact absurd hg (by simp)
  · rw [if_neg hser] at hg
    cases happ : applyIntervals qm r.buckets.series 0 (makeGraphs qm hl) with
    | none => rw [happ] at hg; exact absurd hg (by simp)
    | some gsApp =>
      rw [happ] at hg
      simp only [Option.map_some'] at hg
      injection hg with hg
      injection hg with hg
      subst hg
      obtain ⟨hs2, hl2⟩ := applyIntervals_pres r.buckets.series qm 0
        (makeGraphs qm hl) gsApp qm.groups.length qm.intervals happ
        (makeGraphs_shape qm hl)
      exact ⟨by rw [hl2, makeGraphs_length], hs2⟩

/-- C8 witness. -/
theorem c8_witness :
    ∃ qm gs, metaOf (some rTwoGroups) = some qm ∧
      graphsOf (some qm) "" (some rTwoGroups) = some (some gs) ∧
      gs.length = qm.ops.length ∧
      ∀ g ∈ gs, g.data.length = qm.groups.length ∧
        ∀ row ∈ g.data, row.length = qm.intervals := by
  refine ⟨_, _, rfl, rfl, c8_theorem rTwoGroups _ "" _ rfl rfl⟩

/-- With a non-empty series and well-formed entry groups, the graph
projection succeeds. -/
theorem graphsOf_isSome (r : QueryResult) (hl : String)
    (hser : ¬ r.buckets.series.length = 0)
    (hgrp : ∀ g ∈ allSeriesGroups r, g.group ≠ [] ∧
      g.aggregations.length ≤ (opsOf r).length) :
    ∃ gs, graphsOf (some (metaSome r)) hl (some r) = some (some gs) := by
  have hsort : List.Sorted strLeP (metaSome r).groups := sortStrings_sorted _
  have hshape := makeGraphs_shape (metaSome r) hl
  have hcond : ∀ iv ∈ r.buckets.series, ∀ g ∈ iv.groups,
      getGroupKey (metaSome r).orderedGroupKeys g.group ∈ (metaSome r).groups ∧
      g.aggregations.length ≤ (opsOf r).length := by
    intro iv hiv g hg
    have hmem : g ∈ allSeriesGroups r := by
      simp only [allSeriesGroups, List.mem_flatten]
      exact ⟨iv.groups, List.mem_map_of_mem _ hiv, hg⟩
    refine ⟨?_, (hgrp g hmem).2⟩
    have hkey := keys_mem_walk (allSeriesGroups r) ⟨0, [], []⟩
      (fun g2 hg2 => (hgrp g2 hg2).1) g hmem
    exact (sortStrings_mem _ _).mpr hkey
  obtain ⟨gs2, h2, hsh2, hl2⟩ := applyIntervals_some r.buckets.series (metaSome r) 0
    (makeGraphs (metaSome r) hl) (metaSome r).intervals ((opsOf r).length)
    hsort hshape (by rw [makeGraphs_length]; rfl)
    (by show 0 + r.buckets.series.length ≤ r.buckets.series.length; omega) hcond
  refine ⟨gs2, ?_⟩
  simp only [graphsOf, if_neg hser, h2, Option.map_some']

/-- With a non-null meta the totals-table derivation never panics. -/
theorem totalsTableOf_isSome_meta (qm : QueryMeta) (r : QueryResult) :
    ∃ tt, totalsTableOf (some qm) (some r) = some tt := by
  simp only [totalsTableOf]
  by_cases htot : r.buckets.totals.length = 0
  · rw [if_pos htot]; exact ⟨_, rfl⟩
  · rw [if_neg htot]; exact ⟨_, rfl⟩

/-- The ResultArrived branch processes every well-formed result without a
panic. -/
theorem updateResult_isSome (m : Model) (apl : String) (result : Option QueryResult)
    (err : Option String) (hok : resultOk result) :
    (updateResult m apl result err).isSome := by
  cases result with
  | none => rfl
  | some r =>
    obtain ⟨htot, hgrp⟩ := hok
    by_cases hser : r.buckets.series.length = 0
    · have htote : r.buckets.totals = [] := by
        by_contra hne
        exact (htot hne) (List.length_eq_zero.mp hser)
      simp [updateResult, metaOf, totalsTableOf, graphsOf, hser, htote]
    · have hm : metaOf (some r) = some (metaSome r) := by simp [metaOf, hser]
      obtain ⟨gs, hgs⟩ := graphsOf_isSome r "" hser hgrp
      obtain ⟨tt, htt⟩ := totalsTableOf_isSome_meta (metaSome r) r
      simp [updateResult, hm, htt, hgs]

/-- C3 amended: the controller accepts and fully processes every
ResultArrived event whose result is null or well-formed (non-empty totals
implies non-empty series; each series entry group has a non-empty group map
and no more aggregations than there are totals aliases); outside that class
the processing can panic (see the counterexample). -/
theorem c3_theorem (m : Model) (apl : String) (result : Option QueryResult)
    (err : Option String) (hok : resultOk result) :
    (Update m (.resultMsg apl result err)).isSome :=
  updateResult_isSome m apl result err hok

/-- C3 witness. -/
theorem c3_witness :
    (Update initialModel (.resultMsg "q" (some rTwoGroups) none)).isSome :=
  c3_theorem initialModel "q" (some rTwoGroups) none
    (by unfold resultOk; exact ⟨by decide, by decide⟩)

/-- Looking up a key of a self-keyed map gives its image. -/
theorem lookup_map_self (l : List String) (f : String → String) (k : String)
    (hk : k ∈ l) : (l.map (fun g => (g, f g))).lookup k = some (f k) := by
  induction l with
  | nil => exact absurd hk (List.not_mem_nil k)
  | cons a rest ih =>
    simp only [List.map_cons, List.lookup]
    by_cases h : k = a
    · subst h
      simp
    · have hbeq : (k == a) = false := beq_false_of_ne h
      rw [hbeq]
      exact ih (by
        rcases List.mem_cons.mp hk with h1 | h1
        · exact absurd h1 h
        · exact h1)

/-- The stable palette color of a group is never the dimmed sentinel. -/
theorem colorOf_ne_slateGray (g : String) : colorOf g ≠ slateGray := by
  intro hcon
  have hlen : 0 < COLORS.length := by decide
  have hlt : fnv1a32 g % COLORS.length < COLORS.length := Nat.mod_lt _ hlen
  have hmem : COLORS.getD (fnv1a32 g % COLORS.length) "" ∈ COLORS := by
    rw [List.getD_eq_getElem _ _ hlt]
    exact List.getElem_mem hlt
  rw [colorOf] at hcon
  rw [hcon] at hmem
  revert hmem
  decide

/-- A successful meta derivation yields exactly the derived meta record. -/
theorem metaOf_inv (r : QueryResult) (qm : QueryMeta)
    (hm : metaOf (some r) = some qm) : qm = metaSome r := by
  simp only [metaOf] at hm
  by_cases hser : r.buckets.series.length = 0
  · rw [if_pos hser] at hm
    exact absurd hm (by simp)
  · rw [if_neg hser] at hm
    injection hm with hm
    exact hm.symm

/-- C9 amended: for a totals row whose group key (the first
orderedGroupKeys cells joined by the group-key formation) is one of the
meta groups, the binary search returns an in-range index holding that key,
and with no highlight active the graph row color at that index is the
palette color of the group, never the dimmed sentinel.  The membership
hypothesis is necessary: a totals group absent from the series yields an
out-of-range index (see the counterexample). -/
theorem c9_theorem (r : QueryResult) (qm : QueryMeta) (total : EntryGroup)
    (hm : metaOf (some r) = some qm) (_ht : total ∈ r.buckets.totals)
    (hk : getGroupKey qm.orderedGroupKeys total.group ∈ qm.groups) :
    String.intercalate ", " ((totalsRowOf qm total).take qm.orderedGroupKeys.length) =
      getGroupKey qm.orderedGroupKeys total.group ∧
    searchStrings qm.groups (getGroupKey qm.orderedGroupKeys total.group) <
      qm.groups.length ∧
    qm.groups.getD
        (searchStrings qm.groups (getGroupKey qm.orderedGroupKeys total.group)) "" =
      getGroupKey qm.orderedGroupKeys total.group ∧
    ∀ g ∈ makeGraphs qm "",
      g.colors.getD
          (searchStrings qm.groups (getGroupKey qm.orderedGroupKeys total.group)) "" =
        colorOf (getGroupKey qm.orderedGroupKeys total.group) ∧
      colorOf (getGroupKey qm.orderedGroupKeys total.group) ≠ slateGray := by
  have hqm := metaOf_inv r qm hm
  have hsort : List.Sorted strLeP qm.groups := by
    rw [hqm]
    exact sortStrings_sorted _
  obtain ⟨hlt, hfound⟩ := searchStrings_found qm.groups
    (getGroupKey qm.orderedGroupKeys total.group) hsort hk
  refine ⟨?_, hlt, hfound, ?_⟩
  · have h1 : (qm.orderedGroupKeys.map
        (fun k => fmtValue (mapGet total.group k))).length =
        qm.orderedGroupKeys.length := List.length_map _ _
    rw [totalsRowOf, ← h1, List.take_left]
    rfl
  · intro g hg
    refine ⟨?_, colorOf_ne_slateGray _⟩
    simp only [makeGraphs, List.mem_map] at hg
    obtain ⟨op, hop, heq⟩ := hg
    subst heq
    simp only []
    have hcolors : (qm.groups.map (fun g =>
        if ("" : String) ≠ "" ∧ g ≠ "" then slateGray
        else ((qm.groupColors.lookup g).getD ""))) =
        qm.groups.map (fun g => ((qm.groupColors.lookup g).getD "")) := by
      refine List.map_congr_left ?_
      intro grp hgrp
      rw [if_neg (by simp)]
    rw [hcolors]
    have hlt2 : searchStrings qm.groups (getGroupKey qm.orderedGroupKeys total.group) <
        (qm.groups.map (fun g => ((qm.groupColors.lookup g).getD ""))).length := by
      rw [List.length_map]
      exact hlt
    rw [List.getD_eq_getElem _ _ hlt2, List.getElem_map]
    have hidx : qm.groups[searchStrings qm.groups
        (getGroupKey qm.orderedGroupKeys total.group)] =
        getGroupKey qm.orderedGroupKeys total.group := by
      rw [← List.getD_eq_getElem qm.groups "" hlt]
      exact hfound
    rw [hidx]
    have hgc : qm.groupColors = qm.groups.map (fun g => (g, colorOf g)) := by
      rw [hqm]
      rfl
    rw [hgc, lookup_map_self _ _ _ hk]
    rfl

/-- C9 counterexample: a totals row whose group never occurs in the series
(group z against series group a) forms the key z, and the binary search over
the meta groups returns the insertion point 1, outside the range of the
one-element group list. -/
theorem c9_counterexample :
    ∃ qm t, metaOf (some rTotalsForeign) = some qm ∧
      totalsTableOf (some qm) (some rTotalsForeign) = some (some t) ∧
      t.rows = [["z", "5"]] ∧
      qm.orderedGroupKeys.length = 1 ∧
      ¬ (searchStrings qm.groups
          (String.intercalate ", " (List.take 1 ["z", "5"])) < qm.groups.length) := by
  refine ⟨_, _, rfl, rfl, by decide, by decide, by decide⟩

/-- C9 witness. -/
theorem c9_witness :
    String.intercalate ", " ((totalsRowOf qmTG totA).take qmTG.orderedGroupKeys.length) =
      getGroupKey qmTG.orderedGroupKeys totA.group ∧
    searchStrings qmTG.groups (getGroupKey qmTG.orderedGroupKeys totA.group) <
      qmTG.groups.length ∧
    qmTG.groups.getD
        (searchStrings qmTG.groups (getGroupKey qmTG.orderedGroupKeys totA.group)) "" =
      getGroupKey qmTG.orderedGroupKeys totA.group ∧
    ∀ g ∈ makeGraphs qmTG "",
      g.colors.getD
          (searchStrings qmTG.groups (getGroupKey qmTG.orderedGroupKeys totA.group)) "" =
        colorOf (getGroupKey qmTG.orderedGroupKeys totA.group) ∧
      colorOf (getGroupKey qmTG.orderedGroupKeys totA.group) ≠ slateGray :=
  c9_theorem rTwoGroups qmTG totA (by decide) (by decide) (by decide)

/-- ViewTotals leaves the model unchanged when no group highlight is
active. -/
theorem viewTotals_pure (m : Model) (h : m.highlightedGroup = "") :
    (ViewTotals m).2 = m := by
  unfold ViewTotals
  cases hmt : m.totalsTable with
  | none => rfl
  | some t => simp [h]

/-- ViewMatches leaves the model unchanged when no match is highlighted. -/
theorem viewMatches_pure (m : Model) (h : m.matchesTableHighlightedIdx = -1) :
    (ViewMatches m).2 = m := by
  unfold ViewMatches
  cases hmt : m.matchesTable with
  | none => rfl
  | some t => simp [h]

/-- Up to the selected-row styles, ViewTotals leaves the model unchanged. -/
theorem stripStyles_viewTotals (m : Model) :
    stripStyles (ViewTotals m).2 = stripStyles m := by
  cases hmt : m.totalsTable with
  | none => simp [ViewTotals, hmt]
  | some t =>
    by_cases h : m.highlightedGroup = ""
    · simp [ViewTotals, hmt, h]
    · simp only [ViewTotals, hmt]
      rw [if_pos h]
      simp [stripStyles, stripTableStyles, hmt]

/-- Up to the selected-row styles, ViewMatches leaves the model unchanged. -/
theorem stripStyles_viewMatches (m : Model) :
    stripStyles (ViewMatches m).2 = stripStyles m := by
  cases hmt : m.matchesTable with
  | none => simp [ViewMatches, hmt]
  | some t =>
    by_cases h : m.matchesTableHighlightedIdx = -1
    · simp [ViewMatches, hmt, h]
    · simp only [ViewMatches, hmt]
      rw [if_pos h]
      simp [stripStyles, stripTableStyles, hmt]

/-- A successful render returns the model left by ViewMatches after
ViewTotals (the two style writes). -/
theorem view_model_eq (m : Model) (s : String) (m2 : Model)
    (hready : m.ready = true) (h : View m = some (s, m2)) :
    m2 = (ViewMatches (ViewTotals m).2).2 := by
  unfold View at h
  rw [hready] at h
  simp only [Bool.not_true] at h
  rw [if_neg (by simp)] at h
  cases hd : ViewMatchDetails (ViewMatches (ViewTotals m).2).2 with
  | none => rw [hd] at h; exact absurd h (by simp)
  | some d =>
    rw [hd] at h
    injection h with h2
    injection h2 with h3 h4
    exact h4.symm

/-- C5 counterexample: rendering a ready model with a highlighted match
returns a model whose matches-table selected style was switched to the
highlight style: View mutates state reachable from the model. -/
theorem c5_counterexample :
    (View mHi).map Prod.snd ≠ some mHi ∧
    (View mHi).map (fun p => p.2.matchesTable.map TableW.styles) =
      some (some SelStyle.highlight) ∧
    mHi.matchesTable.map TableW.styles = some SelStyle.construction := by
  exact ⟨by decide, by decide, by decide⟩

/-- C5 amended: a successful render leaves the model unchanged except for
the selected-row styles of the two table widgets, and is a pure projection
whenever no highlight is active. -/
theorem c5_theorem (m : Model) (s : String) (m2 : Model)
    (h : View m = some (s, m2)) :
    stripStyles m2 = stripStyles m ∧
    ((m.matchesTableHighlightedIdx = -1 ∧ m.highlightedGroup = "") → m2 = m) := by
  cases hr : m.ready with
  | false =>
    unfold View at h
    rw [hr] at h
    simp only [Bool.not_false, if_true] at h
    injection h with h2
    injection h2 with h3 h4
    subst h4
    exact ⟨rfl, fun _ => rfl⟩
  | true =>
    have hm2 := view_model_eq m s m2 hr h
    subst hm2
    constructor
    · rw [stripStyles_viewMatches, stripStyles_viewTotals]
    · intro ⟨hidx, hhg⟩
      rw [viewTotals_pure m hhg, viewMatches_pure m hidx]

/-- C5 witness. -/
theorem c5_witness :
    stripStyles initialModel = stripStyles initialModel ∧
    ((initialModel.matchesTableHighlightedIdx = -1 ∧
        initialModel.highlightedGroup = "") → initialModel = initialModel) :=
  c5_theorem initialModel (ViewSplashScreen initialModel) initialModel rfl

/-- The table widget never changes its rows on a key. -/
theorem tableUpdate_rows (t : TableW) (s : String) :
    (tableUpdate t s).rows = t.rows := by
  unfold tableUpdate
  by_cases h1 : s = "up"
  · rw [if_pos h1]
  · rw [if_neg h1]
    by_cases h2 : s = "down"
    · rw [if_pos h2]
    · rw [if_neg h2]

/-- A constructed matches table mirrors the matches of a present result,
one non-empty row per match. -/
theorem matchesTableOf_some (result : Option QueryResult) (t : TableW)
    (h : matchesTableOf result = some t) :
    ∃ r, result = some r ∧ t.rows.length = r.matchList.length ∧
      0 < t.rows.length := by
  cases result with
  | none => exact absurd h (by simp [matchesTableOf])
  | some r =>
    refine ⟨r, rfl, ?_⟩
    cases hml : r.matchList with
    | nil => simp [matchesTableOf, hml] at h
    | cons m0 rest =>
      simp only [matchesTableOf, hml] at h
      injection h with h2
      subst h2
      simp [hml]

/-- Inv only reads the matches table, the highlight index and the stored
result, so it transfers along models equal there. -/
theorem inv_of_fields (m m2 : Model) (hInv : Inv m)
    (ht : m2.matchesTable = m.matchesTable)
    (hi : m2.matchesTableHighlightedIdx = m.matchesTableHighlightedIdx)
    (hq : m2.query.result = m.query.result) : Inv m2 := by
  intro t htt
  rw [ht] at htt
  obtain ⟨r, h1, h2, h3, h4⟩ := hInv t htt
  rw [← ht] at htt
  exact ⟨r, by rw [hq]; exact h1, h2, h3, by rw [hi]; exact h4⟩

/-- Inv holds in the initial model (the table is absent). -/
theorem inv_initial : Inv initialModel := by
  intro t ht
  exact absurd ht (by simp [initialModel])

/-- Inv is re-established by the ResultArrived branch. -/
theorem inv_updateResult (m : Model) (apl : String) (result : Option QueryResult)
    (err : Option String) (m2 : Model) (cs : List Cmd)
    (h : updateResult m apl result err = some (m2, cs)) : Inv m2 := by
  unfold updateResult at h
  split at h
  · exact absurd h (by simp)
  next tt htt =>
    split at h
    · exact absurd h (by simp)
    next gs hgs =>
      injection h with h2
      injection h2 with h3 h4
      subst h3
      intro t ht
      replace ht : matchesTableOf result = some t := ht
      obtain ⟨r, hr, hlen, hpos⟩ := matchesTableOf_some result t ht
      refine ⟨r, ?_, hlen, hpos, ?_⟩
      · show result = some r
        exact hr
      · intro hidx
        exact absurd rfl hidx

/-- Inv is preserved by the matches-highlight move on a table whose rows
mirror the stored matches. -/
theorem inv_matchesHighlight (m : Model) (t t2 : TableW) (hInv : Inv m)
    (hmt : m.matchesTable = some t) (hrows : t2.rows = t.rows) (inc : Int)
    (m2 : Model)
    (h : UpdateMatchesHighlight { m with matchesTable := some t2 } inc = some m2) :
    Inv m2 := by
  replace h : some { m with
                     matchesTable := some t2,
                     matchesTableHighlightedIdx :=
                       (if m.matchesTableHighlightedIdx + inc < 0 then 0
                        else if (t2.rows.length : Int) ≤
                            m.matchesTableHighlightedIdx + inc
                        then (t2.rows.length : Int) - 1
                        else m.matchesTableHighlightedIdx + inc) } = some m2 := h
  injection h with h2
  subst h2
  obtain ⟨r, hr, hlen, hpos, hold⟩ := hInv t hmt
  intro t3 ht3
  replace ht3 : some t2 = some t3 := ht3
  injection ht3 with ht3
  subst ht3
  refine ⟨r, hr, by rw [hrows]; exact hlen, by rw [hrows]; exact hpos, ?_⟩
  have hL2 : (t2.rows.length : Int) = (r.matchList.length : Int) := by
    rw [hrows, hlen]
  have hpos2 : 0 < r.matchList.length := by
    rw [← hlen]
    exact hpos
  intro hne
  show (0 : Int) ≤ (if m.matchesTableHighlightedIdx + inc < 0 then 0
         else if (t2.rows.length : Int) ≤ m.matchesTableHighlightedIdx + inc
         then (t2.rows.length : Int) - 1
         else m.matchesTableHighlightedIdx + inc) ∧
       (if m.matchesTableHighlightedIdx + inc < 0 then 0
         else if (t2.rows.length : Int) ≤ m.matchesTableHighlightedIdx + inc
         then (t2.rows.length : Int) - 1
         else m.matchesTableHighlightedIdx + inc) < (r.matchList.length : Int)
  rw [hL2]
  split_ifs <;> omega

/-- Inv is preserved by every key event. -/
theorem inv_updateKey (m : Model) (s : String) (m2 : Model) (cs : List Cmd)
    (hInv : Inv m) (h : updateKey m s = some (m2, cs)) : Inv m2 := by
  unfold updateKey at h
  by_cases hready : !m.ready
  · rw [if_pos hready] at h
    injection h with h2
    injection h2 with h3 h4
    subst h3
    exact inv_of_fields m _ hInv rfl rfl rfl
  · rw [if_neg hready] at h
    by_cases hcc : s = "ctrl+c"
    · rw [if_pos hcc] at h
      injection h with h2
      injection h2 with h3 h4
      subst h3
      exact hInv
    · rw [if_neg hcc] at h
      by_cases hst : m.state = TYPING
      · rw [if_pos hst] at h
        by_cases hent : s = "enter"
        · rw [if_pos hent] at h
          by_cases hq : m.taValue.trim ≠ ""
          · rw [if_pos hq] at h
            injection h with h2
            injection h2 with h3 h4
            subst h3
            exact inv_of_fields m _ hInv rfl rfl rfl
          · rw [if_neg hq] at h
            injection h with h2
            injection h2 with h3 h4
            subst h3
            exact hInv
        · rw [if_neg hent] at h
          injection h with h2
          injection h2 with h3 h4
          subst h3
          exact inv_of_fields m _ hInv rfl rfl rfl
      · rw [if_neg hst] at h
        by_cases hst2 : m.state = REFRESHING
        · rw [if_pos hst2] at h
          by_cases hesc : s = "esc"
          · rw [if_pos hesc] at h
            injection h with h2
            injection h2 with h3 h4
            subst h3
            exact inv_of_fields m _ hInv rfl rfl rfl
          · rw [if_neg hesc] at h
            split at h
            next t htt =>
              by_cases hfoc : !t.focused
              · rw [if_pos hfoc] at h
                injection h with h2
                injection h2 with h3 h4
                subst h3
                exact inv_of_fields m _ hInv rfl rfl rfl
              · rw [if_neg hfoc] at h
                injection h with h2
                injection h2 with h3 h4
                subst h3
                exact inv_of_fields m _ hInv rfl rfl rfl
            next htt =>
              split at h
              next t hmt =>
                by_cases hdown : s = "down"
                · rw [if_pos hdown] at h
                  cases humh : UpdateMatchesHighlight
                      { m with matchesTable := some (tableUpdate t s) } 1 with
                  | none => rw [humh] at h; exact absurd h (by simp)
                  | some m3 =>
                    rw [humh] at h
                    simp only [Option.map_some'] at h
                    injection h with h2
                    injection h2 with h3 h4
                    subst h3
                    exact inv_matchesHighlight m t (tableUpdate t s) hInv hmt
                      (tableUpdate_rows t s) 1 _ humh
                · rw [if_neg hdown] at h
                  by_cases hup : s = "up"
                  · rw [if_pos hup] at h
                    cases humh : UpdateMatchesHighlight
                        { m with matchesTable := some (tableUpdate t s) } (-1) with
                    | none => rw [humh] at h; exact absurd h (by simp)
                    | some m3 =>
                      rw [humh] at h
                      simp only [Option.map_some'] at h
                      injection h with h2
                      injection h2 with h3 h4
                      subst h3
                      exact inv_matchesHighlight m t (tableUpdate t s) hInv hmt
                        (tableUpdate_rows t s) (-1) _ humh
                  · rw [if_neg hup] at h
                    injection h with h2
                    injection h2 with h3 h4
                    subst h3
                    intro t3 ht3
                    replace ht3 : some (tableUpdate t s) = some t3 := ht3
                    injection ht3 with ht3
                    subst ht3
                    obtain ⟨r, hr, hlen, hpos, hold⟩ := hInv t hmt
                    refine ⟨r, hr, by rw [tableUpdate_rows]; exact hlen,
                            by rw [tableUpdate_rows]; exact hpos, hold⟩
              next hmt =>
                injection h with h2
                injection h2 with h3 h4
                subst h3
                exact hInv
        · rw [if_neg hst2] at h
          injection h with h2
          injection h2 with h3 h4
          subst h3
          exact hInv

/-- Inv is preserved by the highlight-row closure (it only touches the
highlight and the graphs). -/
theorem inv_updateHighlightRow (m : Model) (row : List String) (m2 : Model)
    (cs : List Cmd) (hInv : Inv m)
    (h : updateHighlightRow m row = some (m2, cs)) : Inv m2 := by
  unfold updateHighlightRow at h
  split at h
  · exact absurd h (by simp)
  next qm hqm =>
    by_cases hlen : qm.orderedGroupKeys.length ≤ row.length
    · rw [if_pos hlen] at h
      split at h
      · exact absurd h (by simp)
      next gs hgs =>
        injection h with h2
        injection h2 with h3 h4
        subst h3
        exact inv_of_fields m _ hInv rfl rfl rfl
    · rw [if_neg hlen] at h
      exact absurd h (by simp)

/-- Inv holds in every reachable model. -/
theorem reachable_inv (m : Model) (h : Reachable m) : Inv m := by
  induction h with
  | init => exact inv_initial
  | step mPrevR e m2 cs hreach hupd ih =>
    cases e with
    | key s => exact inv_updateKey mPrevR s m2 cs ih hupd
    | resultMsg apl result err => exact inv_updateResult mPrevR apl result err m2 cs hupd
    | msgUpdate row => exact inv_updateHighlightRow mPrevR row m2 cs ih hupd
    | spinnerTick =>
      replace hupd : (if mPrevR.state = QUERYING
          then some ({ mPrevR with spinnerFrame := mPrevR.spinnerFrame + 1 },
                     [Cmd.spinTick])
          else some (mPrevR, [])) = some (m2, cs) := hupd
      split at hupd
      all_goals
        injection hupd with h2
        injection h2 with h3 h4
        subst h3
      · exact inv_of_fields mPrevR _ ih rfl rfl rfl
      · exact ih
    | refreshMsg =>
      replace hupd : (if mPrevR.state = REFRESHING
          then some ({ mPrevR with refreshTimeout := mPrevR.refreshTimeout - 1 },
                     [Cmd.tickRefreshOrReRun (decide (mPrevR.refreshTimeout - 1 ≤ 1))])
          else some (mPrevR, [])) = some (m2, cs) := hupd
      split at hupd
      all_goals
        injection hupd with h2
        injection h2 with h3 h4
        subst h3
      · exact inv_of_fields mPrevR _ ih rfl rfl rfl
      · exact ih
    | reRunMsg =>
      replace hupd : (if mPrevR.state = REFRESHING
          then some ({ mPrevR with msg := "Running query...", state := QUERYING },
                     [Cmd.spinTick, Cmd.queryCmd mPrevR.query.apl])
          else some (mPrevR, [])) = some (m2, cs) := hupd
      split at hupd
      all_goals
        injection hupd with h2
        injection h2 with h3 h4
        subst h3
      · exact inv_of_fields mPrevR _ ih rfl rfl rfl
      · exact ih
    | pulseMsg =>
      replace hupd : (if !mPrevR.ready
          then some ({ mPrevR with pulseStep :=
                        if mPrevR.pulseStep ≤ 0 then 9 else mPrevR.pulseStep - 1 },
                     [Cmd.tickPulse])
          else some (mPrevR, [])) = some (m2, cs) := hupd
      split at hupd
      all_goals
        injection hupd with h2
        injection h2 with h3 h4
        subst h3
      · exact inv_of_fields mPrevR _ ih rfl rfl rfl
      · exact ih
    | other =>
      injection hupd with h2
      injection h2 with h3 h4
      subst h3
      exact ih

/-- The Inv invariant makes the match-details view total. -/
theorem viewMatchDetails_isSome (m : Model) (hInv : Inv m) :
    (ViewMatchDetails m).isSome := by
  unfold ViewMatchDetails
  cases hmt : m.matchesTable with
  | none => simp
  | some t =>
    by_cases hidx : m.matchesTableHighlightedIdx = -1
    · simp [hidx]
    · obtain ⟨r, hr, hlen, hpos, hrange⟩ := hInv t hmt
      obtain ⟨h0, h1⟩ := hrange hidx
      simp [hidx, hr, h0, h1]

/-- C10 counterexample: the initial model is reachable, its highlight index
is the Go zero value 0 (not -1), and yet its matches table is null, so the
claimed invariant fails on it (ViewMatchDetails stays safe only because it
also guards on the table). -/
theorem c10_counterexample :
    Reachable initialModel ∧
    initialModel.matchesTableHighlightedIdx ≠ -1 ∧
    initialModel.matchesTable = none :=
  ⟨Reachable.init, by decide, rfl⟩

/-- C10 amended: every reachable model satisfies the corrected invariant
(whenever the matches table exists, the stored result exists, the rows
mirror the matches and are non-empty, and an active highlight index is in
matches range), and consequently ViewMatchDetails never accesses out of
range (it never panics). -/
theorem c10_theorem (m : Model) (h : Reachable m) :
    Inv m ∧ (ViewMatchDetails m).isSome :=
  ⟨reachable_inv m h, viewMatchDetails_isSome m (reachable_inv m h)⟩

/-- C10 witness. -/
theorem c10_witness :
    Inv initialModel ∧ (ViewMatchDetails initialModel).isSome :=
  c10_theorem initialModel Reachable.init

/-- Reading any cell of a replicate row of zeros gives the zero float. -/
theorem getD_replicate_zero (n i : Nat) :
    (List.replicate n (F64.fin 0)).getD i (F64.fin 0) = F64.fin 0 := by
  by_cases h : i < n
  · rw [List.getD_eq_getElem _ _ (by simpa using h), List.getElem_replicate]
  · exact List.getD_eq_default _ _ (by simpa using Nat.le_of_not_lt h)

/-- Every cell of the freshly allocated graph set is the zero float. -/
theorem cellGet_makeGraphs (qm : QueryMeta) (hl : String) (k g i : Nat) :
    cellGet (makeGraphs qm hl) k g i = F64.fin 0 := by
  unfold cellGet
  by_cases hk : k < (makeGraphs qm hl).length
  · rw [List.getD_eq_getElem _ _ hk]
    have hk2 : k < qm.ops.length := by rw [← makeGraphs_length qm hl]; exact hk
    simp only [makeGraphs, List.getElem_map]
    by_cases hg : g < qm.groups.length
    · have hrowg : (List.replicate qm.groups.length
          (List.replicate qm.intervals (F64.fin 0))).getD g [] =
          List.replicate qm.intervals (F64.fin 0) := by
        rw [List.getD_eq_getElem _ _ (by simpa using hg), List.getElem_replicate]
      rw [hrowg]
      exact getD_replicate_zero _ _
    · have hrowg : (List.replicate qm.groups.length
          (List.replicate qm.intervals (F64.fin 0))).getD g [] = [] :=
        List.getD_eq_default _ _ (by simpa using Nat.le_of_not_lt hg)
      rw [hrowg]
      rfl
  · rw [List.getD_eq_default _ _ (Nat.le_of_not_lt hk)]
    rfl

/-- Storing one value: the stored cell reads back the value, every other
cell is untouched. -/
theorem cellGet_set (gs : List GraphData) (k rowIdx intervalIdx : Nat)
    (graph : GraphData) (row : List F64) (v : F64)
    (hk : gs[k]? = some graph) (hrow : graph.data[rowIdx]? = some row)
    (hlen : intervalIdx < row.length) :
    cellGet (gs.set k { graph with
      data := graph.data.set rowIdx (row.set intervalIdx v) }) k rowIdx intervalIdx = v ∧
    ∀ k2 g2 i2, (k2 ≠ k ∨ g2 ≠ rowIdx ∨ i2 ≠ intervalIdx) →
      cellGet (gs.set k { graph with
        data := graph.data.set rowIdx (row.set intervalIdx v) }) k2 g2 i2 =
        cellGet gs k2 g2 i2 := by
  obtain ⟨hklen, hkval⟩ := List.getElem?_eq_some.mp hk
  obtain ⟨hrlen, hrval⟩ := List.getElem?_eq_some.mp hrow
  have hgd : ∀ d, gs.getD k d = graph := by
    intro d
    rw [List.getD_eq_getElem?_getD, hk, Option.getD_some]
  have hgd2 : ∀ d, (gs.set k { graph with
      data := graph.data.set rowIdx (row.set intervalIdx v) }).getD k d =
      { graph with data := graph.data.set rowIdx (row.set intervalIdx v) } := by
    intro d
    rw [List.getD_eq_getElem?_getD, @List.getElem?_set_self _ gs k _ hklen,
        Option.getD_some]
  have hrowd : ∀ d, graph.data.getD rowIdx d = row := by
    intro d
    rw [List.getD_eq_getElem?_getD, hrow, Option.getD_some]
  have hrowd2 : ∀ d, (graph.data.set rowIdx (row.set intervalIdx v)).getD rowIdx d =
      row.set intervalIdx v := by
    intro d
    rw [List.getD_eq_getElem?_getD, @List.getElem?_set_self _ graph.data rowIdx _ hrlen,
        Option.getD_some]
  constructor
  · unfold cellGet
    rw [hgd2]
    show ((graph.data.set rowIdx (row.set intervalIdx v)).getD rowIdx []).getD
      intervalIdx (F64.fin 0) = v
    rw [hrowd2, List.getD_eq_getElem?_getD,
        @List.getElem?_set_self _ row intervalIdx _ hlen, Option.getD_some]
  · intro k2 g2 i2 hne
    unfold cellGet
    by_cases hk2 : k2 = k
    · subst hk2
      rw [hgd2, hgd]
      show ((graph.data.set rowIdx (row.set intervalIdx v)).getD g2 []).getD
        i2 (F64.fin 0) = (graph.data.getD g2 []).getD i2 (F64.fin 0)
      by_cases hg2 : g2 = rowIdx
      · subst hg2
        rw [hrowd2, hrowd]
        rcases hne with hne | hne | hne
        · exact absurd rfl hne
        · exact absurd rfl hne
        · rw [List.getD_eq_getElem?_getD, List.getElem?_set_ne (fun hcon => hne hcon.symm),
              ← List.getD_eq_getElem?_getD]
      · rw [List.getD_eq_getElem?_getD (graph.data.set rowIdx (row.set intervalIdx v)),
            List.getElem?_set_ne (fun hcon => hg2 hcon.symm),
            ← List.getD_eq_getElem?_getD]
    · rw [List.getD_eq_getElem?_getD (gs.set k _),
          List.getElem?_set_ne (fun hcon => hk2 hcon.symm),
          ← List.getD_eq_getElem?_getD]

/-- One successful aggregation write stores its write value in its target
cell and leaves every other cell unchanged. -/
theorem applyAgg_cells (rowIdx intervalIdx k : Nat) (a : Aggregation)
    (gs gs2 : List GraphData) (h : applyAgg rowIdx intervalIdx k a gs = some gs2) :
    cellGet gs2 k rowIdx intervalIdx = writeValue a ∧
    ∀ k2 g2 i2, (k2 ≠ k ∨ g2 ≠ rowIdx ∨ i2 ≠ intervalIdx) →
      cellGet gs2 k2 g2 i2 = cellGet gs k2 g2 i2 := by
  unfold applyAgg at h
  split at h
  · exact absurd h (by simp)
  next graph hk =>
    split at h
    · exact absurd h (by simp)
    next row hrow =>
      unfold setCell at h
      by_cases hlen : intervalIdx < row.length
      · simp only [hlen, if_true, Option.map_some'] at h
        injection h with h2
        subst h2
        exact cellGet_set gs k rowIdx intervalIdx graph row _ hk hrow hlen
      · simp [hlen] at h

/-- The aggregation loop does not touch cells outside its row, its column
and its graph index window. -/
theorem applyAggs_cells_other (aggs : List Aggregation) :
    ∀ (rowIdx intervalIdx k0 : Nat) (gs gs2 : List GraphData),
      applyAggs rowIdx intervalIdx aggs k0 gs = some gs2 →
      ∀ k2 g2 i2,
        (g2 ≠ rowIdx ∨ i2 ≠ intervalIdx ∨ k2 < k0 ∨ k0 + aggs.length ≤ k2) →
        cellGet gs2 k2 g2 i2 = cellGet gs k2 g2 i2 := by
  induction aggs with
  | nil =>
    intro rowIdx intervalIdx k0 gs gs2 h k2 g2 i2 hne
    simp only [applyAggs] at h
    cases h
    rfl
  | cons a rest ih =>
    intro rowIdx intervalIdx k0 gs gs2 h k2 g2 i2 hne
    simp only [applyAggs] at h
    cases hstep : applyAgg rowIdx intervalIdx k0 a gs with
    | none => rw [hstep] at h; exact absurd h (by simp)
    | some gsMid =>
      rw [hstep] at h
      have hne1 : g2 ≠ rowIdx ∨ i2 ≠ intervalIdx ∨ k2 < k0 + 1 ∨
          (k0 + 1) + rest.length ≤ k2 := by
        rcases hne with hne | hne | hne | hne
        · exact Or.inl hne
        · exact Or.inr (Or.inl hne)
        · exact Or.inr (Or.inr (Or.inl (by omega)))
        · exact Or.inr (Or.inr (Or.inr (by simp at hne; omega)))
      have hne2 : k2 ≠ k0 ∨ g2 ≠ rowIdx ∨ i2 ≠ intervalIdx := by
        rcases hne with hne | hne | hne | hne
        · exact Or.inr (Or.inl hne)
        · exact Or.inr (Or.inr hne)
        · exact Or.inl (by omega)
        · exact Or.inl (by simp at hne; omega)
      rw [ih rowIdx intervalIdx (k0 + 1) gsMid gs2 h k2 g2 i2 hne1]
      exact (applyAgg_cells rowIdx intervalIdx k0 a gs gsMid hstep).2 k2 g2 i2 hne2

/-- The aggregation loop stores the write value of the j-th aggregation in
graph k0 + j at its row and column. -/
theorem applyAggs_cells_write (aggs : List Aggregation) :
    ∀ (rowIdx intervalIdx k0 : Nat) (gs gs2 : List GraphData),
      applyAggs rowIdx intervalIdx aggs k0 gs = some gs2 →
      ∀ j a, aggs[j]? = some a →
        cellGet gs2 (k0 + j) rowIdx intervalIdx = writeValue a := by
  induction aggs with
  | nil =>
    intro rowIdx intervalIdx k0 gs gs2 h j a hj
    exact absurd hj (by simp)
  | cons a0 rest ih =>
    intro rowIdx intervalIdx k0 gs gs2 h j a hj
    simp only [applyAggs] at h
    cases hstep : applyAgg rowIdx intervalIdx k0 a0 gs with
    | none => rw [hstep] at h; exact absurd h (by simp)
    | some gsMid =>
      rw [hstep] at h
      cases j with
      | zero =>
        simp only [List.getElem?_cons_zero] at hj
        injection hj with hj
        subst hj
        rw [Nat.add_zero]
        rw [applyAggs_cells_other rest rowIdx intervalIdx (k0 + 1) gsMid gs2 h
            k0 rowIdx intervalIdx (Or.inr (Or.inr (Or.inl (by omega))))]
        exact (applyAgg_cells rowIdx intervalIdx k0 a0 gs gsMid hstep).1
      | succ j2 =>
        simp only [List.getElem?_cons_succ] at hj
        have heq : k0 + (j2 + 1) = (k0 + 1) + j2 := by omega
        rw [heq]
        exact ih rowIdx intervalIdx (k0 + 1) gsMid gs2 h j2 a hj

/-- The group loop of one interval: other columns are untouched, and a cell
of its own column reads the last value written to it, falling back to its
previous content when no entry group targets it. -/
theorem applyGroups_cells (egs : List EntryGroup) :
    ∀ (qm : QueryMeta) (i : Nat) (gs gs2 : List GraphData),
      applyGroups qm i egs gs = some gs2 →
      (∀ k2 g2 i2, i2 ≠ i → cellGet gs2 k2 g2 i2 = cellGet gs k2 g2 i2) ∧
      (∀ k2 g2, cellGet gs2 k2 g2 i =
        (((egs.filter (fun eg => rowIdxOf qm eg = g2)).filterMap
          (fun eg => eg.aggregations[k2]?)).map writeValue).getLastD
          (cellGet gs k2 g2 i)) := by
  induction egs with
  | nil =>
    intro qm i gs gs2 h
    simp only [applyGroups] at h
    cases h
    exact ⟨fun k2 g2 i2 hne => rfl, fun k2 g2 => rfl⟩
  | cons eg rest ih =>
    intro qm i gs gs2 h
    simp only [applyGroups, applyGroup] at h
    cases hstep : applyAggs (searchStrings qm.groups
        (getGroupKey qm.orderedGroupKeys eg.group)) i eg.aggregations 0 gs with
    | none => rw [hstep] at h; exact absurd h (by simp)
    | some gsMid =>
      rw [hstep] at h
      obtain ⟨ihOther, ihCol⟩ := ih qm i gsMid gs2 h
      have hstepRow : applyAggs (rowIdxOf qm eg) i eg.aggregations 0 gs = some gsMid :=
        hstep
      constructor
      · intro k2 g2 i2 hne
        rw [ihOther k2 g2 i2 hne]
        exact applyAggs_cells_other eg.aggregations (rowIdxOf qm eg) i 0 gs gsMid
          hstepRow k2 g2 i2 (Or.inr (Or.inl hne))
      · intro k2 g2
        rw [ihCol k2 g2]
        by_cases hrow : rowIdxOf qm eg = g2
        · rw [List.filter_cons_of_pos (by simpa using hrow)]
          cases hagg : eg.aggregations[k2]? with
          | some a =>
            rw [List.filterMap_cons_some (by simpa using hagg), List.map_cons,
                List.getLastD_cons]
            have hmid : cellGet gsMid k2 g2 i = writeValue a := by
              rw [← hrow, ← Nat.zero_add k2]
              exact applyAggs_cells_write eg.aggregations (rowIdxOf qm eg) i 0
                gs gsMid hstepRow k2 a hagg
            rw [hmid]
          | none =>
            rw [List.filterMap_cons_none (by simpa using hagg)]
            have hmid : cellGet gsMid k2 g2 i = cellGet gs k2 g2 i := by
              refine applyAggs_cells_other eg.aggregations (rowIdxOf qm eg) i 0
                gs gsMid hstepRow k2 g2 i ?_
              refine Or.inr (Or.inr (Or.inr ?_))
              rw [Nat.zero_add]
              exact List.getElem?_eq_none_iff.mp hagg
            rw [hmid]
        · rw [List.filter_cons_of_neg (by simpa using hrow)]
          have hmid : cellGet gsMid k2 g2 i = cellGet gs k2 g2 i :=
            applyAggs_cells_other eg.aggregations (rowIdxOf qm eg) i 0 gs gsMid
              hstepRow k2 g2 i (Or.inl (fun hcon => hrow hcon.symm))
          rw [hmid]

/-- The interval loop: columns before the starting index are untouched, and
a column inside the window reads the last value its own interval wrote,
falling back to the entry content when untargeted. -/
theorem applyIntervals_cells (ivs : List SeriesInterval) :
    ∀ (qm : QueryMeta) (j0 : Nat) (gs gs2 : List GraphData),
      applyIntervals qm ivs j0 gs = some gs2 →
      (∀ k2 g2 i2, i2 < j0 → cellGet gs2 k2 g2 i2 = cellGet gs k2 g2 i2) ∧
      (∀ k2 g2 i2, j0 ≤ i2 → i2 < j0 + ivs.length →
        cellGet gs2 k2 g2 i2 =
          ((((ivs.getD (i2 - j0) ⟨[]⟩).groups.filter
              (fun eg => rowIdxOf qm eg = g2)).filterMap
            (fun eg => eg.aggregations[k2]?)).map writeValue).getLastD
            (cellGet gs k2 g2 i2)) := by
  induction ivs with
  | nil =>
    intro qm j0 gs gs2 h
    simp only [applyIntervals] at h
    cases h
    exact ⟨fun k2 g2 i2 hlt => rfl, fun k2 g2 i2 hle hlt => by simp at hlt; omega⟩
  | cons iv rest ih =>
    intro qm j0 gs gs2 h
    simp only [applyIntervals] at h
    cases hstep : applyGroups qm j0 iv.groups gs with
    | none => rw [hstep] at h; exact absurd h (by simp)
    | some gsMid =>
      rw [hstep] at h
      obtain ⟨ihLow, ihWin⟩ := ih qm (j0 + 1) gsMid gs2 h
      obtain ⟨gOther, gCol⟩ := applyGroups_cells iv.groups qm j0 gs gsMid hstep
      constructor
      · intro k2 g2 i2 hlt
        rw [ihLow k2 g2 i2 (by omega)]
        exact gOther k2 g2 i2 (by omega)
      · intro k2 g2 i2 hle hlt
        by_cases hi2 : i2 = j0
        · subst hi2
          rw [ihLow k2 g2 i2 (by omega), Nat.sub_self, List.getD_cons_zero]
          exact gCol k2 g2
        · have hsub : i2 - j0 = (i2 - (j0 + 1)) + 1 := by omega
          rw [hsub, List.getD_cons_succ,
              ihWin k2 g2 i2 (by omega) (by simp at hlt; omega),
              gOther k2 g2 i2 (fun hcon => hi2 hcon)]

/-- C2 (amended): for every successfully projected result, every graph cell
in interval range holds the value of the last aggregation written to it by
the UpdateGraphs loop — its float value when its dynamic type is float64,
the NaN sentinel otherwise — while a cell that receives no write at all
keeps the zero-initialised finite 0, not NaN. -/
theorem c2_theorem (r : QueryResult) (qm : QueryMeta) (hl : String)
    (gs : List GraphData) (k g i : Nat)
    (hm : metaOf (some r) = some qm)
    (hg : graphsOf (some qm) hl (some r) = some (some gs))
    (hi : i < qm.intervals) :
    cellGet gs k g i =
      ((cellWrites qm r k g i).map writeValue).getLastD (F64.fin 0) ∧
    (cellWrites qm r k g i = [] → cellGet gs k g i = F64.fin 0) ∧
    (∀ a f, (cellWrites qm r k g i).getLast? = some a →
      a.value = Value.vfloat f → cellGet gs k g i = f) ∧
    (∀ a, (cellWrites qm r k g i).getLast? = some a →
      (∀ f, a.value ≠ Value.vfloat f) → cellGet gs k g i = F64.nan) := by
  have hqm := metaOf_inv r qm hm
  have hchar : cellGet gs k g i =
      ((cellWrites qm r k g i).map writeValue).getLastD (F64.fin 0) := by
    simp only [graphsOf] at hg
    by_cases hser : r.buckets.series.length = 0
    · rw [if_pos hser] at hg; exact absurd hg (by simp)
    · rw [if_neg hser] at hg
      cases happ : applyIntervals qm r.buckets.series 0 (makeGraphs qm hl) with
      | none => rw [happ] at hg; exact absurd hg (by simp)
      | some gsApp =>
        rw [happ] at hg
        simp only [Option.map_some'] at hg
        injection hg with hg
        injection hg with hg
        subst hg
        have hiS : i < r.buckets.series.length := by
          have hint : qm.intervals = r.buckets.series.length := by rw [hqm]; rfl
          omega
        obtain ⟨_, hwin⟩ := applyIntervals_cells r.buckets.series qm 0
          (makeGraphs qm hl) gsApp happ
        have hcell := hwin k g i (Nat.zero_le i) (by omega)
        rw [Nat.sub_zero] at hcell
        rw [hcell, cellGet_makeGraphs]
        rfl
  refine ⟨hchar, ?_, ?_, ?_⟩
  · intro hnil
    rw [hchar, hnil]
    rfl
  · intro a f hlast hfloat
    rw [hchar, List.getLastD_eq_getLast?, List.getLast?_map, hlast]
    simp only [Option.map_some', Option.getD_some]
    rw [writeValue, hfloat]
  · intro a hlast hnf
    rw [hchar, List.getLastD_eq_getLast?, List.getLast?_map, hlast]
    simp only [Option.map_some', Option.getD_some]
    rw [writeValue]
    cases hv : a.value with
    | vfloat f => exact absurd hv (hnf f)
    | vint n => rfl
    | vstr s => rfl
    | vnil => rfl
    | vother s => rfl

/-- C2 witness: in the two-group scenario whose interval-1 value for group a
is a non-floating scalar, the cell of graph 0, row a, interval 1 obeys the
characterization — its last (only) write is non-float, so it is NaN. -/
theorem c2_witness :
    ∃ qm gs, metaOf (some rTwoGroupsStr) = some qm ∧
      graphsOf (some qm) "" (some rTwoGroupsStr) = some (some gs) ∧
      1 < qm.intervals ∧
      (cellGet gs 0 0 1 =
        ((cellWrites qm rTwoGroupsStr 0 0 1).map writeValue).getLastD (F64.fin 0) ∧
      (cellWrites qm rTwoGroupsStr 0 0 1 = [] → cellGet gs 0 0 1 = F64.fin 0) ∧
      (∀ a f, (cellWrites qm rTwoGroupsStr 0 0 1).getLast? = some a →
        a.value = Value.vfloat f → cellGet gs 0 0 1 = f) ∧
      (∀ a, (cellWrites qm rTwoGroupsStr 0 0 1).getLast? = some a →
        (∀ f, a.value ≠ Value.vfloat f) → cellGet gs 0 0 1 = F64.nan)) :=
  ⟨_, _, rfl, rfl, by decide,
   c2_theorem rTwoGroupsStr _ "" _ 0 0 1 rfl rfl (by decide)⟩

/-- Mapping a function that agrees on related elements along a Forall₂
relation yields equal lists. -/
theorem map_congr_forall2 {α β : Type} (R : α → α → Prop) (f : α → β) :
    ∀ {l1 l2 : List α}, List.Forall₂ R l1 l2 →
      (∀ a b, R a b → f a = f b) → l1.map f = l2.map f := by
  intro l1 l2 h hf
  induction h with
  | nil => rfl
  | cons hab _ ih => simp only [List.map_cons, hf _ _ hab, ih]

/-- Folding a function that agrees on related elements along a Forall₂
relation yields equal results. -/
theorem foldl_congr_forall2 {α β : Type} (R : α → α → Prop) (f : β → α → β)
    (hf : ∀ b a1 a2, R a1 a2 → f b a1 = f b a2) :
    ∀ {l1 l2 : List α}, List.Forall₂ R l1 l2 →
      ∀ (b : β), l1.foldl f b = l2.foldl f b := by
  intro l1 l2 h
  induction h with
  | nil => intro b; rfl
  | cons hab _ ih =>
    intro b
    simp only [List.foldl_cons]
    rw [hf b _ _ hab]
    exact ih _

/-- Flattening componentwise-related lists of lists relates the results. -/
theorem flatten_forall2 {α : Type} (R : α → α → Prop) :
    ∀ {ls1 ls2 : List (List α)}, List.Forall₂ (List.Forall₂ R) ls1 ls2 →
      List.Forall₂ R ls1.flatten ls2.flatten := by
  intro ls1 ls2 h
  exact List.rel_flatten h

/-- Mapping along a Forall₂ relation with a relation-preserving function. -/
theorem forall2_map {α β : Type} (R : α → α → Prop) (S : β → β → Prop)
    (f : α → β) (hf : ∀ a b, R a b → S (f a) (f b)) :
    ∀ {l1 l2 : List α}, List.Forall₂ R l1 l2 →
      List.Forall₂ S (l1.map f) (l2.map f) := by
  intro l1 l2 h
  induction h with
  | nil => exact List.Forall₂.nil
  | cons hab _ ih => exact List.Forall₂.cons (hf _ _ hab) ih

/-- Looking a key up in a Go map is invariant under re-enumeration: the map
binds each key once, so every permutation of the bindings yields the same
lookup result. -/
theorem lookup_perm (k : String) :
    ∀ {m1 m2 : List (String × Value)}, m1.Perm m2 →
      (m1.map Prod.fst).Nodup → m1.lookup k = m2.lookup k := by
  intro m1 m2 hp
  induction hp with
  | nil => intro _; rfl
  | cons x h ih =>
    intro hn
    simp only [List.map_cons, List.nodup_cons] at hn
    obtain ⟨a, b⟩ := x
    rw [List.lookup_cons, List.lookup_cons]
    cases k == a with
    | true => rfl
    | false => exact ih hn.2
  | swap x y l =>
    intro hn
    obtain ⟨a, b⟩ := x
    obtain ⟨c, d⟩ := y
    simp only [List.map_cons, List.nodup_cons, List.mem_cons] at hn
    rw [List.lookup_cons, List.lookup_cons, List.lookup_cons, List.lookup_cons]
    cases hka : k == a with
    | true =>
      cases hkc : k == c with
      | true =>
        exact absurd (Or.inl ((eq_of_beq hkc).symm.trans (eq_of_beq hka))) hn.1
      | false => rfl
    | false =>
      cases hkc : k == c with
      | true => rfl
      | false => rfl
  | trans h1 _ ih1 ih2 =>
    intro hn
    rw [ih1 hn, ih2 ((h1.map Prod.fst).nodup hn)]

/-- Go map indexing is invariant under re-enumeration of the map. -/
theorem mapGet_equiv (m1 m2 : List (String × Value)) (h : goMapEquiv m1 m2)
    (k : String) : mapGet m1 k = mapGet m2 k := by
  unfold mapGet
  rw [lookup_perm k h.1 h.2]

/-- The group key of an entry group is invariant under re-enumeration of its
group map: every cell is a fixed-key lookup. -/
theorem getGroupKey_equiv (ogk : List String) (g1 g2 : List (String × Value))
    (h : goMapEquiv g1 g2) :
    getGroupKey ogk g1 = getGroupKey ogk g2 := by
  unfold getGroupKey
  have hmap : ogk.map (fun k => fmtValue (mapGet g1 k)) =
      ogk.map (fun k => fmtValue (mapGet g2 k)) :=
    List.map_congr_left (fun k _ => by rw [mapGet_equiv g1 g2 h k])
  rw [hmap]

/-- Sorting is invariant under permutation of the input: the sorted list of
a multiset is unique. -/
theorem sortStrings_perm_eq (l1 l2 : List String) (hp : l1.Perm l2) :
    sortStrings l1 = sortStrings l2 := by
  haveI : IsAntisymm String strLeP := ⟨fun a b => strLe_antisymm a b⟩
  exact List.eq_of_perm_of_sorted
    (((List.perm_insertionSort strLeP l1).trans hp).trans
      (List.perm_insertionSort strLeP l2).symm)
    (sortStrings_sorted l1) (sortStrings_sorted l2)

/-- One step of the meta walk is invariant under re-enumeration of the entry
group's Group map: the seeded key set is sorted, and the accumulated group
key reads the map by fixed keys. -/
theorem metaStep_equiv (st : MetaWalk) (g1 g2 : EntryGroup) (h : egEquiv g1 g2) :
    metaStep st g1 = metaStep st g2 := by
  obtain ⟨⟨hperm, hnodup⟩, haggs⟩ := h
  have hlen : g1.group.length = g2.group.length := hperm.length_eq
  simp only [metaStep]
  rw [haggs, hlen, sortStrings_perm_eq _ _ (hperm.map Prod.fst),
      getGroupKey_equiv _ _ _ ⟨hperm, hnodup⟩]

/-- The entry groups of re-enumeration-equivalent series are componentwise
equivalent. -/
theorem allSeriesGroups_equiv (r1 r2 : QueryResult)
    (h : List.Forall₂ intervalEquiv r1.buckets.series r2.buckets.series) :
    List.Forall₂ egEquiv (allSeriesGroups r1) (allSeriesGroups r2) := by
  unfold allSeriesGroups
  exact flatten_forall2 _
    (forall2_map intervalEquiv (List.Forall₂ egEquiv) SeriesInterval.groups
      (fun a b hab => hab) h)

/-- The series walk is invariant under re-enumeration of the group maps. -/
theorem metaWalkOf_equiv (r1 r2 : QueryResult)
    (h : List.Forall₂ intervalEquiv r1.buckets.series r2.buckets.series) :
    metaWalkOf r1 = metaWalkOf r2 := by
  unfold metaWalkOf
  exact foldl_congr_forall2 egEquiv metaStep
    (fun st a b hab => metaStep_equiv st a b hab)
    (allSeriesGroups_equiv r1 r2 h) _

/-- One step of the ops walk reads only the aggregations slice. -/
theorem opsStep_equiv (ops : List Op) (g1 g2 : EntryGroup) (h : egEquiv g1 g2) :
    opsStep ops g1 = opsStep ops g2 := by
  unfold opsStep
  rw [h.2]

/-- The ops walk is invariant under re-enumeration of the totals maps. -/
theorem opsOf_equiv (r1 r2 : QueryResult)
    (h : List.Forall₂ egEquiv r1.buckets.totals r2.buckets.totals) :
    opsOf r1 = opsOf r2 := by
  unfold opsOf
  exact foldl_congr_forall2 egEquiv opsStep opsStep_equiv h []

/-- The derived meta record is invariant under result re-enumeration. -/
theorem metaSome_equiv (r1 r2 : QueryResult) (h : resultEquiv r1 r2) :
    metaSome r1 = metaSome r2 := by
  obtain ⟨hser, htot, _⟩ := h
  simp only [metaSome]
  rw [metaWalkOf_equiv r1 r2 hser, opsOf_equiv r1 r2 htot, hser.length_eq]

/-- UpdateQueryMeta is invariant under result re-enumeration. -/
theorem metaOf_equiv (r1 r2 : QueryResult) (h : resultEquiv r1 r2) :
    metaOf (some r1) = metaOf (some r2) := by
  have hlen : r1.buckets.series.length = r2.buckets.series.length :=
    h.1.length_eq
  simp only [metaOf]
  rw [hlen, metaSome_equiv r1 r2 h]

/-- A totals row is invariant under re-enumeration of its group map. -/
theorem totalsRowOf_equiv (qm : QueryMeta) (t1 t2 : EntryGroup)
    (h : egEquiv t1 t2) : totalsRowOf qm t1 = totalsRowOf qm t2 := by
  unfold totalsRowOf
  have hmap : qm.orderedGroupKeys.map (fun k => fmtValue (mapGet t1.group k)) =
      qm.orderedGroupKeys.map (fun k => fmtValue (mapGet t2.group k)) :=
    List.map_congr_left (fun k _ => by rw [mapGet_equiv t1.group t2.group h.1 k])
  rw [hmap, h.2]

/-- The totals table is invariant under re-enumeration of the totals entry
group maps, for any fixed meta. -/
theorem totalsTableOf_equiv (r1 r2 : QueryResult) (qm : QueryMeta)
    (h : List.Forall₂ egEquiv r1.buckets.totals r2.buckets.totals) :
    totalsTableOf (some qm) (some r1) = totalsTableOf (some qm) (some r2) := by
  simp only [totalsTableOf]
  rw [h.length_eq]
  by_cases hlen : r2.buckets.totals.length = 0
  · simp only [if_pos hlen]
  · simp only [if_neg hlen]
    have hrows : r1.buckets.totals.map (totalsRowOf qm) =
        r2.buckets.totals.map (totalsRowOf qm) :=
      map_congr_forall2 egEquiv (totalsRowOf qm) h (totalsRowOf_equiv qm)
    rw [hrows]

/-- Writing one entry group is invariant under re-enumeration of its Group
map: the row index comes from its group key, the writes from its
aggregations. -/
theorem applyGroup_equiv (qm : QueryMeta) (i : Nat) (gs : List GraphData)
    (g1 g2 : EntryGroup) (h : egEquiv g1 g2) :
    applyGroup qm i gs g1 = applyGroup qm i gs g2 := by
  unfold applyGroup
  rw [getGroupKey_equiv qm.orderedGroupKeys g1.group g2.group h.1, h.2]

/-- The group loop is invariant under componentwise re-enumeration. -/
theorem applyGroups_equiv (qm : QueryMeta) (i : Nat) :
    ∀ {egs1 egs2 : List EntryGroup}, List.Forall₂ egEquiv egs1 egs2 →
      ∀ gs, applyGroups qm i egs1 gs = applyGroups qm i egs2 gs := by
  intro egs1 egs2 h
  induction h with
  | nil => intro gs; rfl
  | cons hab htail ih =>
    rename_i a b l1 l2
    intro gs
    simp only [applyGroups]
    rw [applyGroup_equiv qm i gs a b hab]
    cases applyGroup qm i gs b with
    | none => rfl
    | some gs2 => exact ih gs2

/-- The interval loop is invariant under componentwise re-enumeration. -/
theorem applyIntervals_equiv (qm : QueryMeta) :
    ∀ {ivs1 ivs2 : List SeriesInterval}, List.Forall₂ intervalEquiv ivs1 ivs2 →
      ∀ j gs, applyIntervals qm ivs1 j gs = applyIntervals qm ivs2 j gs := by
  intro ivs1 ivs2 h
  induction h with
  | nil => intro j gs; rfl
  | cons hab htail ih =>
    rename_i a b l1 l2
    intro j gs
    simp only [applyIntervals]
    rw [applyGroups_equiv qm j hab gs]
    cases applyGroups qm j b.groups gs with
    | none => rfl
    | some gs2 => exact ih (j + 1) gs2

/-- UpdateGraphs is invariant under re-enumeration of the series group maps,
for any fixed meta and highlight. -/
theorem graphsOf_equiv (r1 r2 : QueryResult) (qm : QueryMeta) (hl : String)
    (h : List.Forall₂ intervalEquiv r1.buckets.series r2.buckets.series) :
    graphsOf (some qm) hl (some r1) = graphsOf (some qm) hl (some r2) := by
  simp only [graphsOf]
  rw [h.length_eq]
  by_cases hlen : r2.buckets.series.length = 0
  · simp only [if_pos hlen]
  · simp only [if_neg hlen]
    rw [applyIntervals_equiv qm h 0 (makeGraphs qm hl)]

/-- C6 (amended): projecting two re-enumerations of the same Go result —
every embedded map (series group maps, totals group maps, match data maps)
traversed in any admissible order — yields identical QueryMeta, totals
table and graphs, because the walk sorts every map-derived sequence and
reads maps only by fixed keys; the matches table's column sequences however
follow the first match's map enumeration and agree only up to
permutation. -/
theorem c6_theorem (r1 r2 : QueryResult) (h : resultEquiv r1 r2) :
    metaOf (some r1) = metaOf (some r2) ∧
    totalsTableOf (metaOf (some r1)) (some r1) =
      totalsTableOf (metaOf (some r2)) (some r2) ∧
    (∀ hl, graphsOf (metaOf (some r1)) hl (some r1) =
      graphsOf (metaOf (some r2)) hl (some r2)) ∧
    (∀ t1 t2, matchesTableOf (some r1) = some t1 →
      matchesTableOf (some r2) = some t2 → t1.columns.Perm t2.columns) := by
  obtain ⟨hser, htot, hmatch⟩ := h
  have hmeta := metaOf_equiv r1 r2 ⟨hser, htot, hmatch⟩
  refine ⟨hmeta, ?_, ?_, ?_⟩
  · rw [hmeta]
    cases metaOf (some r2) with
    | none =>
      simp only [totalsTableOf]
      rw [htot.length_eq]
    | some qm => exact totalsTableOf_equiv r1 r2 qm htot
  · intro hl
    rw [hmeta]
    cases metaOf (some r2) with
    | none =>
      simp only [graphsOf]
      rw [hser.length_eq]
    | some qm => exact graphsOf_equiv r1 r2 qm hl hser
  · intro t1 t2 h1 h2
    simp only [matchesTableOf] at h1 h2
    generalize hL1 : r1.matchList = L1 at h1 hmatch
    generalize hL2 : r2.matchList = L2 at h2 hmatch
    cases hmatch with
    | nil => simp at h1
    | cons hhead htail =>
      rename_i m1 m2 rest1 rest2
      injection h1 with h1
      injection h2 with h2
      subst h1
      subst h2
      exact List.Perm.cons _ (hhead.2.1.map _)

/-- C6 counterexample: the same Go result, its first match's data map
enumerated in the two admissible orders, projects to matches tables with
different column sequences, so the projection is not byte-identical across
runs. -/
theorem c6_counterexample :
    resultEquiv rMapAB rMapBA ∧
    matchesTableOf (some rMapAB) ≠ matchesTableOf (some rMapBA) :=
  ⟨⟨List.Forall₂.nil, List.Forall₂.nil,
    List.Forall₂.cons ⟨rfl, by decide, by decide⟩ List.Forall₂.nil⟩,
   by decide⟩

/-- C6 witness: re-enumerating the group maps of the series and totals
entry groups of a concrete two-dimension result leaves the meta, the totals
table and the graphs byte-identical. -/
theorem c6_witness :
    (resultEquiv rGrpAB rGrpBA ∧
     metaOf (some rGrpAB) = metaOf (some rGrpBA)) ∧
    totalsTableOf (metaOf (some rGrpAB)) (some rGrpAB) =
      totalsTableOf (metaOf (some rGrpBA)) (some rGrpBA) ∧
    graphsOf (metaOf (some rGrpAB)) "" (some rGrpAB) =
      graphsOf (metaOf (some rGrpBA)) "" (some rGrpBA) :=
  have heq : resultEquiv rGrpAB rGrpBA :=
    ⟨List.Forall₂.cons
       (List.Forall₂.cons ⟨⟨by decide, by decide⟩, rfl⟩ List.Forall₂.nil)
       List.Forall₂.nil,
     List.Forall₂.cons ⟨⟨by decide, by decide⟩, rfl⟩ List.Forall₂.nil,
     List.Forall₂.nil⟩
  ⟨⟨heq, (c6_theorem rGrpAB rGrpBA heq).1⟩,
   (c6_theorem rGrpAB rGrpBA heq).2.1,
   (c6_theorem rGrpAB rGrpBA heq).2.2.1 ""⟩
